import Mathlib

/-!
# Verification of the reversible masking/obfuscation core

Shallow embedding of the repository's core components:

* `DataMaskingEngine` (`src/data_masking.py`): the numeric token masker built on the
  regex `\$\d{1,3}(?:,\d{3})*(?:\.\d+)?|\b\d{1,3}(?:,\d{3})*(?:\.\d+)?\b|\b\d+%`,
  its replacement algorithm, and the reversal `decrypt_numerical_values`.
* `FundNameObfuscator` (`src/fund_obfuscator.py`): the entity-name registry, the
  case-insensitive whole-word alternation matcher, placeholder generation,
  obfuscation/deobfuscation, and the persistence entry points.

Strings are modelled as `List Char`; the regex engine semantics (leftmost scan,
ordered alternation, greedy quantifiers with backtracking, ASCII `\b`/`\d`/`\w`)
are embedded as executable functions specialised to the two concrete patterns the
source uses.
-/

namespace AssetPrivacy

/-- Regex `\w` restricted to ASCII: letters, digits, underscore. -/
def isWordChar (c : Char) : Bool := c.isAlpha || c.isDigit || c = '_'

/-- Length of the maximal leading run of ASCII digits. -/
def digitRun : List Char → Nat
  | [] => 0
  | c :: r => if c.isDigit then digitRun r + 1 else 0

/-- Greedy repetition count for `(?:,\d{3})*`: number of consecutive `,ddd` groups. -/
def commaReps : List Char → Nat
  | c :: a :: b :: d :: rest =>
    if c = ',' ∧ a.isDigit ∧ b.isDigit ∧ d.isDigit then commaReps rest + 1 else 0
  | _ => 0

/-- Zero-width `\b` after a consumed word character (always a digit at call sites):
holds iff the remaining input is empty or starts with a non-word character. -/
def boundaryAfterDigit : List Char → Bool
  | [] => true
  | c :: _ => !(isWordChar c)

/-- `\b` before a match that begins with a word character: the previous character is
absent (start of text) or a non-word character. -/
def boundaryBefore : Option Char → Bool
  | none => true
  | some c => !(isWordChar c)

/-- First alternative `\$\d{1,3}(?:,\d{3})*(?:\.\d+)?` of the numeric pattern at the
current position.  No trailing constraint follows any quantifier, so the greedy
choice always succeeds; the returned value is the match length. -/
def matchAlt1 : List Char → Option Nat
  | [] => none
  | c :: rest =>
    if c = '$' then
      let m := digitRun rest
      if m = 0 then none else
      let k := min 3 m
      let rest2 := rest.drop k
      let r := commaReps rest2
      let rest3 := rest2.drop (4 * r)
      let d := match rest3 with
        | [] => 0
        | e :: r2 =>
          if e = '.' then (let j := digitRun r2; if j = 0 then 0 else 1 + j) else 0
      some (1 + k + 4 * r + d)
    else none

/-- The suffix `(?:\.\d+)?\b` of the second alternative, on the text `l` following
the digits and comma groups: the regex engine tries the dot branch first (inside it
only the full digit run can satisfy the trailing `\b`), then the empty branch,
which leaves the final `\b` to be checked against the head of `l`.  Returns the
extra length consumed. -/
def alt2Tail : List Char → Option Nat
  | [] => some 0
  | c :: r2 =>
    if c = '.' then
      let j := digitRun r2
      if j ≠ 0 ∧ boundaryAfterDigit (r2.drop j) then some (1 + j) else some 0
    else if isWordChar c then none else some 0

/-- Backtracking over the greedy `(?:,\d{3})*` repetition count, highest first.
Each group is exactly 4 characters, so `r` repetitions consume `4*r`. -/
def alt2Reps (l : List Char) : Nat → Option Nat
  | 0 =>
    match alt2Tail l with
    | some t => some t
    | none => none
  | r + 1 =>
    match alt2Tail (l.drop (4 * (r + 1))) with
    | some t => some (4 * (r + 1) + t)
    | none => alt2Reps l r

/-- Second alternative `\b\d{1,3}(?:,\d{3})*(?:\.\d+)?\b`.  A leading digit run of
length `> 3` can never succeed: whichever 1–3 digits `\d{1,3}` keeps, the next
character is a digit, so the comma group, the dot group and the trailing `\b` all
fail. -/
def matchAlt2 (prev : Option Char) (l : List Char) : Option Nat :=
  if boundaryBefore prev then
    let m := digitRun l
    if 1 ≤ m ∧ m ≤ 3 then
      let rest := l.drop m
      match alt2Reps rest (commaReps rest) with
      | some t => some (m + t)
      | none => none
    else none
  else none

/-- Third alternative `\b\d+%`: only the full digit run can be followed by `%`. -/
def matchAlt3 (prev : Option Char) (l : List Char) : Option Nat :=
  if boundaryBefore prev then
    let m := digitRun l
    if m = 0 then none
    else
      match l.drop m with
      | [] => none
      | c :: _ => if c = '%' then some (m + 1) else none
  else none

/-- The full numeric pattern of `mask_numerical_values` (src/data_masking.py line 27)
at one position: Python's ordered alternation, first alternative that matches wins. -/
def matchAt (prev : Option Char) (l : List Char) : Option Nat :=
  match matchAlt1 l with
  | some n => some n
  | none =>
    match matchAlt2 prev l with
    | some n => some n
    | none => matchAlt3 prev l

/-- `re.finditer` for the numeric pattern: leftmost scan, non-overlapping matches,
resuming after each match.  `skip` is the number of characters of the previous
match still to be consumed (no match may begin inside them), `prev` the character
preceding offset `i` (`none` at the start of the text); results are
`(start, length)` pairs in scan order. -/
def findRun : Nat → Option Char → Nat → List Char → List (Nat × Nat)
  | _, _, _, [] => []
  | skip + 1, _, i, c :: rest => findRun skip (some c) (i + 1) rest
  | 0, prev, i, c :: rest =>
    match matchAt prev (c :: rest) with
    | some n => (i, n) :: findRun (n - 1) (some c) (i + 1) rest
    | none => findRun 0 (some c) (i + 1) rest

/-- All matches of the numeric pattern (`list(re.finditer(pattern, text))`). -/
def findFrom (prev : Option Char) (i : Nat) (l : List Char) : List (Nat × Nat) :=
  findRun 0 prev i l

/-- A decimal digit character. -/
def digitChar (d : Nat) : Char := Char.ofNat (48 + d)

/-- Digit extraction with explicit fuel so that the kernel can evaluate it; the
fuel is always sufficient since `n / 10 < n` for positive `n`. -/
def natDigitsAux : Nat → Nat → List Char
  | _, 0 => []
  | 0, _ + 1 => []
  | fuel + 1, n + 1 => natDigitsAux fuel ((n + 1) / 10) ++ [digitChar ((n + 1) % 10)]

/-- The decimal representation of `n`, most significant digit first (empty for 0;
the padded formats below then print the same text CPython does). -/
def natDigits (n : Nat) : List Char := natDigitsAux n n

/-- Python `f"{c:06d}"`: decimal digits left-padded with `'0'` to width at least 6. -/
def pad6 (c : Nat) : List Char :=
  List.replicate (6 - (natDigits c).length) '0' ++ natDigits c

/-- The masked token `f"NUM_{counter:06d}"`. -/
def numPlaceholder (c : Nat) : List Char := 'N' :: 'U' :: 'M' :: '_' :: pad6 c

/-- One entry of `masking_info['masked_values']` (and of `self.masked_values`):
original matched text, placeholder, and the `[start, stop)` span in the original
text (`match.span()`). -/
structure MaskRecord where
  original : List Char
  masked : List Char
  start : Nat
  stop : Nat
deriving Repr, DecidableEq

/-- Python slice `t[a:b]`. -/
def slice (t : List Char) (a b : Nat) : List Char := (t.take b).drop a

/-- One splice step `masked_text[:start] + masked_value + masked_text[end:]`. -/
def applySub (t : List Char) (r : MaskRecord) : List Char :=
  t.take r.start ++ r.masked ++ t.drop r.stop

/-- `DataMaskingEngine.mask_numerical_values` with the engine's `mask_counter`
passed explicitly.  Collects all matches over the original text, builds the records
in scan order (counter increasing), then applies the substitutions in reversed
collection order (descending start offset).  Returns the masked text, the record
list in insertion order, and the updated counter. -/
def mask_numerical_values (counter : Nat) (text : List Char) :
    List Char × List MaskRecord × Nat :=
  let ms := findFrom none 0 text
  let records := ms.enum.map fun p =>
    { original := slice text p.2.1 (p.2.1 + p.2.2)
      masked := numPlaceholder (counter + p.1)
      start := p.2.1
      stop := p.2.1 + p.2.2 : MaskRecord }
  (records.reverse.foldl applySub text, records, counter + ms.length)

/-- Python `str.replace(pat, rep)`, scanning left to right: `skip` counts the
characters of a just-replaced occurrence still to be dropped. -/
def replaceRun (pat rep : List Char) : Nat → List Char → List Char
  | _, [] => []
  | skip + 1, _ :: rest => replaceRun pat rep skip rest
  | 0, c :: rest =>
    if pat.isPrefixOf (c :: rest) ∧ pat ≠ [] then
      rep ++ replaceRun pat rep (pat.length - 1) rest
    else
      c :: replaceRun pat rep 0 rest

/-- Python `str.replace(pat, rep)`: replace every occurrence left to right,
non-overlapping.  (The engine never calls it with an empty pattern; for `pat = []`
this model returns the text unchanged.) -/
def replaceAll (t pat rep : List Char) : List Char := replaceRun pat rep 0 t

/-- `DataMaskingEngine.decrypt_numerical_values`: iterate the records in reverse
insertion order and globally replace each placeholder by its original value. -/
def decrypt_numerical_values (masked_text : List Char) (records : List MaskRecord) :
    List Char :=
  records.reverse.foldl (fun t r => replaceAll t r.masked r.original) masked_text

/-- Convenience: the character list of a string literal. -/
def str (s : String) : List Char := s.data

/-! ## Fund name obfuscator (src/fund_obfuscator.py) -/

/-- ASCII case-insensitive character comparison (`re.IGNORECASE`). -/
def ciEq (a b : Char) : Bool := a.toLower = b.toLower

/-- Case-insensitive prefix test: does the literal `pat` match at the head of `t`? -/
def ciPrefix : List Char → List Char → Bool
  | [], _ => true
  | _ :: _, [] => false
  | p :: ps, c :: cs => ciEq p c && ciPrefix ps cs

/-- Word-character test on an optional character; outside the text counts non-word. -/
def wordOpt : Option Char → Bool
  | none => false
  | some c => isWordChar c

/-- Zero-width `\b` between two adjacent text positions: exactly one side is a word
character. -/
def boundary (a b : Option Char) : Bool := wordOpt a != wordOpt b

/-- The alternation `\b(name1|name2|...)\b` with `re.IGNORECASE` at one position:
the leading `\b` is checked against the surrounding characters, then the first
registry name (in registry order) that matches case-insensitively and is followed
by `\b` wins.  Returns the match length. -/
def matchFundAt (names : List (List Char)) (prev : Option Char) (l : List Char) :
    Option Nat :=
  if boundary prev l.head? then
    (names.find? fun nm =>
        ciPrefix nm l &&
        boundary (if nm.isEmpty then prev else (l.take nm.length).getLast?)
          (l.drop nm.length).head?).map List.length
  else none

/-- `re.finditer` for the fund-name pattern over the original text; `(start, length)`
pairs in scan order, `skip` as in `findRun`.  (After a zero-width match the scan
advances one position, as CPython does; a trailing zero-width match at the very end
of the text is not produced, which only matters for an empty registered name.) -/
def findFundsRun (names : List (List Char)) : Nat → Option Char → Nat → List Char →
    List (Nat × Nat)
  | _, _, _, [] => []
  | skip + 1, _, i, c :: rest => findFundsRun names skip (some c) (i + 1) rest
  | 0, prev, i, c :: rest =>
    match matchFundAt names prev (c :: rest) with
    | some n => (i, n) :: findFundsRun names (n - 1) (some c) (i + 1) rest
    | none => findFundsRun names 0 (some c) (i + 1) rest

/-- All matches of the fund-name pattern. -/
def findFundsFrom (names : List (List Char)) (prev : Option Char) (i : Nat)
    (l : List Char) : List (Nat × Nat) :=
  findFundsRun names 0 prev i l

/-- Python `f"{n:03d}"`. -/
def pad3 (n : Nat) : List Char :=
  List.replicate (3 - (natDigits n).length) '0' ++ natDigits n

/-- The registry placeholder `f"Fund{i+1:03d}"`. -/
def fundPlaceholder (n : Nat) : List Char := 'F' :: 'u' :: 'n' :: 'd' :: pad3 n

/-- Python dict read `d[k]` (first entry wins; insertion order preserved). -/
def dictGet? (d : List (List Char × List Char)) (k : List Char) : Option (List Char) :=
  (d.find? fun p => p.1 = k).map Prod.snd

/-- Python dict write `d[k] = v`: update in place if the key exists, else append. -/
def dictSet (d : List (List Char × List Char)) (k v : List Char) :
    List (List Char × List Char) :=
  match d with
  | [] => [(k, v)]
  | p :: rest => if p.1 = k then (k, v) :: rest else p :: dictSet rest k v

/-- Python `del d[k]` (removes the entry if present). -/
def dictDel (d : List (List Char × List Char)) (k : List Char) :
    List (List Char × List Char) :=
  match d with
  | [] => []
  | p :: rest => if p.1 = k then rest else p :: dictDel rest k

/-- One entry of `obfuscation_info['obfuscated_funds']`. -/
structure ObfRecord where
  original : List Char
  placeholder : List Char
  start : Nat
  stop : Nat
deriving Repr, DecidableEq

/-- The mutable state of a `FundNameObfuscator`. -/
structure FundNameObfuscator where
  master_fund_names : List (List Char)
  placeholder_mapping : List (List Char × List Char)
  obfuscated_funds : List ObfRecord
  obfuscation_counter : Nat
deriving Repr, DecidableEq

/-- The literal `self.default_fund_names` list. -/
def default_fund_names : List (List Char) :=
  [str "MasterFund1", str "MasterFund2", str "MasterFund3", str "MasterFund4",
   str "MasterFund5", str "AlphaFund", str "BetaFund", str "GammaFund",
   str "DeltaFund", str "OmegaFund", str "StrategicFund", str "GrowthFund",
   str "ValueFund", str "IncomeFund", str "BalancedFund", str "GlobalFund",
   str "RegionalFund", str "SectorFund", str "IndexFund", str "HedgeFund"]

/-- The loop body of `_generate_placeholders`:
`for i, fund_name in enumerate(names): mapping[fund_name] = f"Fund{i+1:03d}"`. -/
def genPlaceholdersAux (i : Nat) (names : List (List Char))
    (d : List (List Char × List Char)) : List (List Char × List Char) :=
  match names with
  | [] => d
  | nm :: rest => genPlaceholdersAux (i + 1) rest (dictSet d nm (fundPlaceholder (i + 1)))

/-- `FundNameObfuscator._generate_placeholders` applied to a mapping dict. -/
def _generate_placeholders (names : List (List Char))
    (d : List (List Char × List Char)) : List (List Char × List Char) :=
  genPlaceholdersAux 0 names d

/-- `FundNameObfuscator.__init__` with no fund-names file. -/
def initObfuscator : FundNameObfuscator :=
  { master_fund_names := default_fund_names
    placeholder_mapping := _generate_placeholders default_fund_names []
    obfuscated_funds := []
    obfuscation_counter := 0 }

/-- `FundNameObfuscator.add_fund_name`. -/
def add_fund_name (ob : FundNameObfuscator) (nm : List Char) : FundNameObfuscator :=
  if nm ∈ ob.master_fund_names then ob
  else
    { ob with
      master_fund_names := ob.master_fund_names ++ [nm]
      placeholder_mapping :=
        dictSet ob.placeholder_mapping nm
          (fundPlaceholder (ob.master_fund_names.length + 1)) }

/-- `FundNameObfuscator.remove_fund_name`: delete, then regenerate the whole table. -/
def remove_fund_name (ob : FundNameObfuscator) (nm : List Char) : FundNameObfuscator :=
  if nm ∈ ob.master_fund_names then
    { ob with
      master_fund_names := ob.master_fund_names.erase nm
      placeholder_mapping :=
        _generate_placeholders (ob.master_fund_names.erase nm)
          (dictDel ob.placeholder_mapping nm) }
  else ob

/-- `re.sub(re.escape(old), new, t, flags=re.IGNORECASE, count=1)`: replace the
first case-insensitive occurrence of the literal `old`, scanning left to right.
(The engine never passes an empty `old`; the model leaves `t` unchanged then.) -/
def replaceFirstCI (t old new : List Char) : List Char :=
  match t with
  | [] => []
  | c :: rest =>
    if ciPrefix old (c :: rest) ∧ old ≠ [] then new ++ rest.drop (old.length - 1)
    else c :: replaceFirstCI rest old new

/-- Python exceptions that the persistence/obfuscation paths can raise. -/
inductive PyError
  | fileNotFound
  | jsonDecode
  | keyError (k : List Char)
deriving Repr, DecidableEq

/-- `FundNameObfuscator.obfuscate_fund_names`: find all whole-word case-insensitive
matches over the original text, and for each (in scan order) look up
`placeholder_mapping[match.group()]` — a `KeyError` when the matched casing is not
the registered key — then substitute the first case-insensitive occurrence in the
current text.  `obfuscateStep` is one iteration of the loop; the state is
`(obfuscated_text, records so far, obfuscation_counter)`. -/
def obfuscateStep (mapping : List (List Char × List Char)) (text : List Char)
    (st : List Char × List ObfRecord × Nat) (p : Nat × Nat) :
    Except PyError (List Char × List ObfRecord × Nat) :=
  let original := slice text p.1 (p.1 + p.2)
  match dictGet? mapping original with
  | none => Except.error (PyError.keyError original)
  | some ph =>
    Except.ok (replaceFirstCI st.1 original ph,
      st.2.1 ++ [⟨original, ph, p.1, p.1 + p.2⟩],
      st.2.2 + 1)

def obfuscate_fund_names (ob : FundNameObfuscator) (text : List Char) :
    Except PyError (List Char × List ObfRecord × FundNameObfuscator) :=
  let ms := findFundsFrom ob.master_fund_names none 0 text
  (ms.foldlM (obfuscateStep ob.placeholder_mapping text)
      (text, ([] : List ObfRecord), ob.obfuscation_counter)).map
    fun st =>
      (st.1, st.2.1,
        { ob with
          obfuscated_funds := ob.obfuscated_funds ++ st.2.1
          obfuscation_counter := st.2.2 })

/-- `FundNameObfuscator.deobfuscate_fund_names`: iterate the records in insertion
order and globally replace each placeholder by its original. -/
def deobfuscate_fund_names (obfuscated_text : List Char) (records : List ObfRecord) :
    List Char :=
  records.foldl (fun t r => replaceAll t r.placeholder r.original) obfuscated_text

/-! ## Persistence entry points (C4) -/

/-- Result of `open` + `json.load` on a path: the file may be missing
(`FileNotFoundError`), contain invalid JSON (`json.JSONDecodeError`), or parse into
a payload. -/
inductive FileRead (α : Type)
  | missing
  | corrupt
  | parsed (a : α)

/-- The mutable state of a `DataMaskingEngine`. -/
structure DataMaskingEngine where
  masked_values : List MaskRecord
  mask_counter : Nat
deriving Repr, DecidableEq

/-- `DataMaskingEngine.load_masking_info`: no exception handler around
`open`/`json.load`, so a missing or corrupt file raises out of the method and the
engine state is untouched only because the method never ran. -/
def load_masking_info (_eng : DataMaskingEngine) :
    FileRead (List MaskRecord) → Except PyError DataMaskingEngine
  | .missing => .error .fileNotFound
  | .corrupt => .error .jsonDecode
  | .parsed data => .ok { masked_values := data, mask_counter := data.length }

/-- `FundNameObfuscator.load_obfuscation_info`: likewise unguarded. -/
def load_obfuscation_info (ob : FundNameObfuscator) :
    FileRead (List ObfRecord) → Except PyError FundNameObfuscator
  | .missing => .error .fileNotFound
  | .corrupt => .error .jsonDecode
  | .parsed data =>
    .ok { ob with obfuscated_funds := data, obfuscation_counter := data.length }

/-- Payload of a fund-names file; either key may be absent (`dict.get` defaults). -/
structure FundNamesFile where
  master_fund_names : Option (List (List Char))
  placeholder_mapping : Option (List (List Char × List Char))

/-- `FundNameObfuscator.load_fund_names`: `FileNotFoundError` and `JSONDecodeError`
are caught (a message is printed and the current names are kept); a parsed file
replaces names and mapping, regenerating placeholders when the stored mapping is
empty. -/
def load_fund_names (ob : FundNameObfuscator) :
    FileRead FundNamesFile → Except PyError FundNameObfuscator
  | .missing => .ok ob
  | .corrupt => .ok ob
  | .parsed d =>
    let names := d.master_fund_names.getD default_fund_names
    let mapping := d.placeholder_mapping.getD []
    .ok { ob with
      master_fund_names := names
      placeholder_mapping :=
        if mapping.isEmpty then _generate_placeholders names [] else mapping }

/-- Registry states reachable from the default constructor by any sequence of
`add_fund_name` / `remove_fund_name` calls. -/
inductive Reachable : FundNameObfuscator → Prop
  | init : Reachable initObfuscator
  | add (ob : FundNameObfuscator) (nm : List Char) :
      Reachable ob → Reachable (add_fund_name ob nm)
  | remove (ob : FundNameObfuscator) (nm : List Char) :
      Reachable ob → Reachable (remove_fund_name ob nm)

/-! ## Specification-side definitions used to state the theorems -/

/-- Does `pat` occur as a contiguous substring of `t`? -/
def occurs (pat : List Char) : List Char → Bool
  | [] => pat.isEmpty
  | c :: rest => pat.isPrefixOf (c :: rest) || occurs pat rest

/-- A text decomposed into alternating gaps and spliced segments:
`weave g0 [(m1, g1), (m2, g2)] = g0 ++ m1 ++ g1 ++ m2 ++ g2`. -/
def weave (g0 : List Char) : List (List Char × List Char) → List Char
  | [] => g0
  | (m, g) :: rest => g0 ++ m ++ weave g rest

/-- The placeholder table the registry invariant predicts: name `i` (0-based,
counted from `k`) bound to `fundPlaceholder (i+1)`. -/
def canonMapping (k : Nat) : List (List Char) → List (List Char × List Char)
  | [] => []
  | nm :: rest => (nm, fundPlaceholder (k + 1)) :: canonMapping (k + 1) rest

/-- The character classes a numeric-pattern match can contain. -/
def tokenChar (c : Char) : Bool :=
  c = '$' || c.isDigit || c = ',' || c = '.' || c = '%'

/-- Relation between adjacent characters of a numeric match: a digit can only be
preceded by `$`, `,`, `.` or another digit. -/
def digitPred (a b : Char) : Prop :=
  b.isDigit = true → (a = '$' ∨ a = ',' ∨ a = '.' ∨ a.isDigit = true)

/-- The character preceding position `i` of `S` (`none` at the start of the text). -/
def prevCharOf (S : List Char) (i : Nat) : Option Char :=
  if i = 0 then none else S.get? (i - 1)

/-- The spliced text from position `pos` on: gaps of `T` interleaved with the
replacement strings of the (sorted) replacement list, then the tail of `T`. -/
def splicedFrom (T : List Char) (pos : Nat) : List (Nat × Nat × List Char) → List Char
  | [] => T.drop pos
  | (s, e, rep) :: rest => slice T pos s ++ rep ++ splicedFrom T e rest

/-- As `splicedFrom`, but without the trailing tail of `T`. -/
def splicedPre (T : List Char) (pos : Nat) : List (Nat × Nat × List Char) → List Char
  | [] => []
  | (s, e, rep) :: rest => slice T pos s ++ rep ++ splicedPre T e rest

/-- The position just after the last replacement (`pos` if there is none). -/
def endPos (pos : Nat) : List (Nat × Nat × List Char) → Nat
  | [] => pos
  | (_, e, _) :: rest => endPos e rest

/-- The `(start, stop, placeholder)` replacement triple of a record. -/
def tripleOf (r : MaskRecord) : Nat × Nat × List Char := (r.start, r.stop, r.masked)

/-- Numeric value of a decimal digit character. -/
def digitVal (c : Char) : Nat := c.toNat - 48

/-- The number a big-endian digit string denotes. -/
def valOfDigits (l : List Char) : Nat := l.foldl (fun a c => 10 * a + digitVal c) 0

/-- The registry invariant: no duplicate names, and the placeholder table is exactly
the canonical position-derived table. -/
def RegistryInv (ob : FundNameObfuscator) : Prop :=
  ob.master_fund_names.Nodup
  ∧ ob.placeholder_mapping = canonMapping 0 ob.master_fund_names

/-- Substring-level non-interaction of two replacement records `(p1 → o1)` and
`(p2 → o2)`: neither placeholder occurs in — or overlaps, as a suffix meeting a
prefix — the other record's placeholder or original, and neither original can
complete the other record's placeholder across a junction.  Every condition is a
containment or suffix/prefix test on the four strings themselves, so it is
decidable and it holds for the placeholders `Fund<nnn>` together with ordinary
fund-name originals (e.g. `Fund001 → MasterFund1` versus `Fund002 → MasterFund2`);
it fails exactly for the interacting mappings for which reversal is genuinely
order-dependent. -/
abbrev NonInteracting (p1 o1 p2 o2 : List Char) : Prop :=
  p1 ≠ [] ∧ p2 ≠ [] ∧
  occurs p1 p2 = false ∧ occurs p2 p1 = false ∧
  occurs p2 o1 = false ∧ occurs p1 o2 = false ∧
  (∀ k, k < p2.length → ¬ (p2.drop k).isPrefixOf p1 = true) ∧
  (∀ k, k < p2.length → ¬ (p2.drop k).isPrefixOf o1 = true) ∧
  (∀ k, k < p2.length → ¬ o1.isPrefixOf (p2.drop k) = true) ∧
  (∀ k, k < p1.length → ¬ (p1.drop k).isPrefixOf p2 = true) ∧
  (∀ k, k < p1.length → ¬ (p1.drop k).isPrefixOf o2 = true) ∧
  (∀ k, k < p1.length → ¬ o2.isPrefixOf (p1.drop k) = true) ∧
  (∀ k, k < o1.length → ¬ (o1.drop k).isPrefixOf p2 = true) ∧
  (∀ k, k < o2.length → ¬ (o2.drop k).isPrefixOf p1 = true)

/-! ## Decimal-digit facts -/

theorem digitVal_digitChar {d : Nat} (h : d < 10) : digitVal (digitChar d) = d := by
  interval_cases d <;> rfl

theorem foldl_natDigitsAux (fuel : Nat) :
    ∀ n acc, n ≤ fuel →
      List.foldl (fun a c => 10 * a + digitVal c) acc (natDigitsAux fuel n) =
        acc * 10 ^ (natDigitsAux fuel n).length + n := by
  induction fuel with
  | zero =>
    intro n acc h
    interval_cases n
    simp [natDigitsAux]
  | succ f ih =>
    intro n acc h
    match n with
    | 0 => simp [natDigitsAux]
    | n + 1 =>
      have hq : (n + 1) / 10 ≤ f := by
        have := Nat.div_lt_self (Nat.succ_pos n) (by norm_num : 1 < 10)
        omega
      simp only [natDigitsAux, List.foldl_append, List.foldl_cons, List.foldl_nil,
        List.length_append, List.length_cons, List.length_nil]
      rw [ih _ _ hq, digitVal_digitChar (Nat.mod_lt _ (by norm_num))]
      have hmod : 10 * ((n + 1) / 10) + (n + 1) % 10 = n + 1 := Nat.div_add_mod _ _
      rw [pow_succ]
      ring_nf
      omega

theorem valOfDigits_natDigits (n : Nat) : valOfDigits (natDigits n) = n := by
  have := foldl_natDigitsAux n n 0 (le_refl n)
  simpa [valOfDigits, natDigits] using this

theorem foldl_zeros (k : Nat) :
    List.foldl (fun a c => 10 * a + digitVal c) 0 (List.replicate k '0') = 0 := by
  induction k with
  | zero => rfl
  | succ m ih => simpa [List.replicate_succ, digitVal] using ih

theorem valOfDigits_replicate_zero (k : Nat) (l : List Char) :
    valOfDigits (List.replicate k '0' ++ l) = valOfDigits l := by
  simp only [valOfDigits, List.foldl_append, foldl_zeros]

theorem pad3_injective : Function.Injective pad3 := by
  intro a b h
  have ha := valOfDigits_natDigits a
  have hb := valOfDigits_natDigits b
  have : valOfDigits (pad3 a) = valOfDigits (pad3 b) := by rw [h]
  simpa [pad3, valOfDigits_replicate_zero, ha, hb] using this

theorem pad6_injective : Function.Injective pad6 := by
  intro a b h
  have ha := valOfDigits_natDigits a
  have hb := valOfDigits_natDigits b
  have : valOfDigits (pad6 a) = valOfDigits (pad6 b) := by rw [h]
  simpa [pad6, valOfDigits_replicate_zero, ha, hb] using this

theorem fundPlaceholder_injective : Function.Injective fundPlaceholder := by
  intro a b h
  simp only [fundPlaceholder, List.cons.injEq, true_and] at h
  exact pad3_injective h

theorem numPlaceholder_injective : Function.Injective numPlaceholder := by
  intro a b h
  simp only [numPlaceholder, List.cons.injEq, true_and] at h
  exact pad6_injective h

/-! ## Dict and registry lemmas -/

theorem dictSet_of_not_mem_keys {d : List (List Char × List Char)} {k : List Char}
    (h : k ∉ d.map Prod.fst) (v : List Char) : dictSet d k v = d ++ [(k, v)] := by
  induction d with
  | nil => rfl
  | cons p rest ih =>
    simp only [List.map_cons, List.mem_cons, not_or] at h
    simp only [dictSet, if_neg (Ne.symm h.1), List.cons_append]
    rw [ih h.2]

theorem genPlaceholdersAux_cons_not_mem (k v : List Char) :
    ∀ (names : List (List Char)) (i : Nat) (d : List (List Char × List Char)),
      k ∉ names →
      genPlaceholdersAux i names ((k, v) :: d) =
        (k, v) :: genPlaceholdersAux i names d := by
  intro names
  induction names with
  | nil => intro i d _; rfl
  | cons nm rest ih =>
    intro i d h
    simp only [List.mem_cons, not_or] at h
    simp only [genPlaceholdersAux, dictSet, if_neg h.1]
    exact ih _ _ h.2

theorem genPlaceholdersAux_canon :
    ∀ names : List (List Char), names.Nodup →
    ∀ (i : Nat) (d : List (List Char × List Char)), d.map Prod.fst = names →
      genPlaceholdersAux i names d = canonMapping i names := by
  intro names
  induction names with
  | nil =>
    intro _ i d hd
    have hd' : d = [] := by
      cases d with
      | nil => rfl
      | cons p r => simp at hd
    simp [hd', genPlaceholdersAux, canonMapping]
  | cons nm rest ih =>
    intro hn i d hd
    match d with
    | [] => simp at hd
    | (k, v) :: drest =>
      simp only [List.map_cons, List.cons.injEq] at hd
      have hnm : nm ∉ rest := (List.nodup_cons.mp hn).1
      simp only [genPlaceholdersAux, dictSet, hd.1, eq_self_iff_true, if_true,
        canonMapping]
      rw [genPlaceholdersAux_cons_not_mem _ _ _ _ _ hnm,
        ih (List.nodup_cons.mp hn).2 _ _ hd.2]

theorem genPlaceholdersAux_nil_canon :
    ∀ names : List (List Char), names.Nodup →
    ∀ i : Nat, genPlaceholdersAux i names [] = canonMapping i names := by
  intro names
  induction names with
  | nil => intro _ i; rfl
  | cons nm rest ih =>
    intro hn i
    have hnm : nm ∉ rest := (List.nodup_cons.mp hn).1
    simp only [genPlaceholdersAux, dictSet, canonMapping]
    rw [genPlaceholdersAux_cons_not_mem _ _ _ _ _ hnm, ih (List.nodup_cons.mp hn).2]

theorem canonMapping_keys (k : Nat) (names : List (List Char)) :
    (canonMapping k names).map Prod.fst = names := by
  induction names generalizing k with
  | nil => rfl
  | cons nm rest ih => simp [canonMapping, ih]

theorem canonMapping_append_single :
    ∀ (xs : List (List Char)) (k : Nat) (y : List Char),
      canonMapping k (xs ++ [y]) =
        canonMapping k xs ++ [(y, fundPlaceholder (k + xs.length + 1))] := by
  intro xs
  induction xs with
  | nil => intro k y; rfl
  | cons x rest ih =>
    intro k y
    show (x, fundPlaceholder (k + 1)) :: canonMapping (k + 1) (rest ++ [y]) = _
    rw [ih]
    have h3 : k + 1 + rest.length + 1 = k + (x :: rest).length + 1 := by
      simp only [List.length_cons]
      omega
    simp only [canonMapping, List.cons_append, h3]

theorem dictDel_keys {d : List (List Char × List Char)} {k : List Char} :
    (dictDel d k).map Prod.fst = (d.map Prod.fst).erase k := by
  induction d with
  | nil => rfl
  | cons p rest ih =>
    by_cases hp : p.1 = k
    · simp only [dictDel, if_pos hp, List.map_cons]
      rw [hp, List.erase_cons_head]
    · simp only [dictDel, if_neg hp, List.map_cons]
      rw [List.erase_cons_tail, ih]
      simpa using hp

theorem registry_invariant {ob : FundNameObfuscator} (h : Reachable ob) :
    RegistryInv ob := by
  induction h with
  | init =>
    constructor
    · decide
    · decide
  | add ob nm _ ih =>
    obtain ⟨hnodup, hmap⟩ := ih
    unfold add_fund_name
    by_cases hmem : nm ∈ ob.master_fund_names
    · simp only [if_pos hmem]
      exact ⟨hnodup, hmap⟩
    · simp only [if_neg hmem]
      refine ⟨?_, ?_⟩
      · exact List.Nodup.append hnodup (List.nodup_singleton nm)
          (by simpa [List.disjoint_singleton] using hmem)
      · simp only [hmap]
        rw [dictSet_of_not_mem_keys (by rw [canonMapping_keys]; exact hmem),
          canonMapping_append_single]
        simp
  | remove ob nm _ ih =>
    obtain ⟨hnodup, hmap⟩ := ih
    unfold remove_fund_name
    by_cases hmem : nm ∈ ob.master_fund_names
    · simp only [if_pos hmem]
      have hnodup' : (ob.master_fund_names.erase nm).Nodup := hnodup.erase nm
      refine ⟨hnodup', ?_⟩
      have hkeys : (dictDel ob.placeholder_mapping nm).map Prod.fst =
          ob.master_fund_names.erase nm := by
        rw [hmap] at *
        rw [dictDel_keys, canonMapping_keys]
      exact genPlaceholdersAux_canon _ hnodup' 0 _ hkeys
    · simp only [if_neg hmem]
      exact ⟨hnodup, hmap⟩

theorem dictGet_canonMapping :
    ∀ names : List (List Char), names.Nodup →
    ∀ (k i : Nat) (hi : i < names.length),
      dictGet? (canonMapping k names) (names.get ⟨i, hi⟩) =
        some (fundPlaceholder (k + i + 1)) := by
  intro names
  induction names with
  | nil => intro _ k i hi; exact absurd hi (by simp)
  | cons nm rest ih =>
    intro hn k i hi
    match i with
    | 0 => simp [canonMapping, dictGet?]
    | i + 1 =>
      have hi' : i < rest.length := by simpa using hi
      have hmem : rest.get ⟨i, hi'⟩ ∈ rest := List.get_mem rest _ _
      have hne : ¬nm = rest.get ⟨i, hi'⟩ := fun he =>
        (List.nodup_cons.mp hn).1 (he ▸ hmem)
      have hstep := ih (List.nodup_cons.mp hn).2 (k + 1) i hi'
      simp only [dictGet?] at hstep
      have harith : k + 1 + i + 1 = k + (i + 1) + 1 := by omega
      simp only [canonMapping, dictGet?, List.get_cons_succ]
      rw [List.find?_cons_of_neg _ (by simpa using hne), ← harith]
      exact hstep

theorem canonMapping_snd_mem :
    ∀ (names : List (List Char)) (k : Nat) (v : List Char),
      v ∈ (canonMapping k names).map Prod.snd →
      ∃ j, k + 1 ≤ j ∧ v = fundPlaceholder j := by
  intro names
  induction names with
  | nil => intro k v h; exact absurd h (by simp [canonMapping])
  | cons nm rest ih =>
    intro k v h
    simp only [canonMapping, List.map_cons, List.mem_cons] at h
    rcases h with h | h
    · exact ⟨k + 1, le_refl _, h⟩
    · obtain ⟨j, hj, hv⟩ := ih (k + 1) v h
      exact ⟨j, by omega, hv⟩

theorem canonMapping_values_nodup :
    ∀ (names : List (List Char)) (k : Nat),
      ((canonMapping k names).map Prod.snd).Nodup := by
  intro names
  induction names with
  | nil => intro k; exact List.nodup_nil
  | cons nm rest ih =>
    intro k
    simp only [canonMapping, List.map_cons, List.nodup_cons]
    refine ⟨fun hmem => ?_, ih (k + 1)⟩
    obtain ⟨j, hj, hv⟩ := canonMapping_snd_mem rest (k + 1) _ hmem
    have := fundPlaceholder_injective hv
    omega

/-! ## C3: registry placeholder invariant -/

/-- C3 counterexample: in the initial registry the first registered name is bound
to `"Fund001"`, which does not carry the claimed `"ENTITY"` prefix, so the stated
placeholder format `"ENTITY" + zero-padded(i+1)` is false of the code. -/
theorem C3_counterexample :
    dictGet? initObfuscator.placeholder_mapping (str "MasterFund1") =
      some (str "Fund001")
    ∧ (str "ENTITY").isPrefixOf (str "Fund001") = false := by decide

/-- C3 amended: for every registry state reachable by any sequence of add/remove
operations, the registered names are duplicate-free and the placeholder table is
exactly the canonical position-derived table — the i-th name (0-based) is bound to
`"Fund" + 3-digit zero-padded (i+1)` — with all placeholders distinct.  Because
the table always equals this function of the current name list, removing an entry
shifts every subsequent entry's placeholder (and `add` extends the table
consistently without a full recomputation). -/
theorem C3_amended (ob : FundNameObfuscator) (h : Reachable ob) :
    ob.master_fund_names.Nodup
    ∧ ob.placeholder_mapping = canonMapping 0 ob.master_fund_names
    ∧ (∀ (i : Nat) (hi : i < ob.master_fund_names.length),
        dictGet? ob.placeholder_mapping (ob.master_fund_names.get ⟨i, hi⟩) =
          some (fundPlaceholder (i + 1)))
    ∧ (ob.placeholder_mapping.map Prod.snd).Nodup := by
  obtain ⟨hnodup, hmap⟩ := registry_invariant h
  refine ⟨hnodup, hmap, ?_, ?_⟩
  · intro i hi
    rw [hmap]
    simpa using dictGet_canonMapping _ hnodup 0 i hi
  · rw [hmap]
    exact canonMapping_values_nodup _ 0

/-- C3 witness: the amended invariant holds of the concrete reachable state
obtained by initialising, adding `"NewFund"` and removing `"MasterFund1"`. -/
theorem C3_amended_witness :
    (remove_fund_name (add_fund_name initObfuscator (str "NewFund"))
        (str "MasterFund1")).master_fund_names.Nodup
    ∧ (remove_fund_name (add_fund_name initObfuscator (str "NewFund"))
        (str "MasterFund1")).placeholder_mapping =
      canonMapping 0 (remove_fund_name (add_fund_name initObfuscator (str "NewFund"))
        (str "MasterFund1")).master_fund_names
    ∧ (∀ (i : Nat) (hi : i < (remove_fund_name (add_fund_name initObfuscator
        (str "NewFund")) (str "MasterFund1")).master_fund_names.length),
        dictGet? (remove_fund_name (add_fund_name initObfuscator (str "NewFund"))
            (str "MasterFund1")).placeholder_mapping
          ((remove_fund_name (add_fund_name initObfuscator (str "NewFund"))
            (str "MasterFund1")).master_fund_names.get ⟨i, hi⟩) =
          some (fundPlaceholder (i + 1)))
    ∧ ((remove_fund_name (add_fund_name initObfuscator (str "NewFund"))
        (str "MasterFund1")).placeholder_mapping.map Prod.snd).Nodup :=
  C3_amended _ (Reachable.remove _ _ (Reachable.add _ _ Reachable.init))

/-! ## Occurrence lemmas for the reversal directions -/

theorem replaceRun_zero_of_not_occurs :
    ∀ (t pat rep : List Char), occurs pat t = false → replaceRun pat rep 0 t = t := by
  intro t
  induction t with
  | nil => intro pat rep _; rfl
  | cons c rest ih =>
    intro pat rep h
    simp only [occurs, Bool.or_eq_false_iff] at h
    simp only [replaceRun]
    rw [if_neg (by simp [h.1]), ih _ rep h.2]

theorem replaceAll_of_not_occurs {t pat : List Char} (rep : List Char)
    (h : occurs pat t = false) : replaceAll t pat rep = t :=
  replaceRun_zero_of_not_occurs t pat rep h

/-! ## C8: tolerance of unused placeholder records -/

/-- C8 counterexample: a record whose placeholder does **not** occur in the input
text can still change the result, because an earlier-processed record's original
value introduces that placeholder.  With the mapping
`[{original "x", masked "NUM_000001"}, {original "NUM_000001", masked "NUM_000000"}]`
on the text `"NUM_000000"`, the first record's placeholder `"NUM_000001"` is absent
from the text, yet dropping that record changes the output from `"x"` to
`"NUM_000001"` — it does not "contribute nothing". -/
theorem C8_counterexample :
    occurs (str "NUM_000001") (str "NUM_000000") = false
    ∧ decrypt_numerical_values (str "NUM_000000")
        [⟨str "x", str "NUM_000001", 0, 1⟩,
         ⟨str "NUM_000001", str "NUM_000000", 0, 10⟩] = str "x"
    ∧ decrypt_numerical_values (str "NUM_000000")
        [⟨str "NUM_000001", str "NUM_000000", 0, 10⟩] = str "NUM_000001" := by
  decide

/-- C8 amended: both reversal operations are total, and a record whose placeholder
does not occur in the text **at the moment the record is processed** (for
`decrypt_numerical_values` the last record of the mapping, which is processed
first; for `deobfuscate_fund_names` the first record) leaves the text unchanged at
that step — dropping such a record gives the same result, and its absence is not
an error. -/
theorem C8_amended (t : List Char) (recs : List MaskRecord) (r : MaskRecord)
    (orecs : List ObfRecord) (ro : ObfRecord)
    (h1 : occurs r.masked t = false) (h2 : occurs ro.placeholder t = false) :
    decrypt_numerical_values t (recs ++ [r]) = decrypt_numerical_values t recs
    ∧ deobfuscate_fund_names t (ro :: orecs) = deobfuscate_fund_names t orecs := by
  constructor
  · simp only [decrypt_numerical_values, List.reverse_append, List.reverse_cons,
      List.reverse_nil, List.nil_append, List.singleton_append, List.foldl_cons]
    rw [replaceAll_of_not_occurs _ h1]
  · simp only [deobfuscate_fund_names, List.foldl_cons]
    rw [replaceAll_of_not_occurs _ h2]

/-- C8 witness: the amended statement at a concrete text and mapping. -/
theorem C8_amended_witness :
    occurs (str "NUM_000009") (str "hello") = false
    ∧ occurs (str "Fund006") (str "hello") = false
    ∧ (decrypt_numerical_values (str "hello")
          ([⟨str "7", str "NUM_000003", 0, 1⟩] ++ [⟨str "5", str "NUM_000009", 2, 3⟩]) =
        decrypt_numerical_values (str "hello") [⟨str "7", str "NUM_000003", 0, 1⟩]
      ∧ deobfuscate_fund_names (str "hello")
          (⟨str "AlphaFund", str "Fund006", 0, 9⟩ :: []) =
        deobfuscate_fund_names (str "hello") []) :=
  ⟨by decide, by decide,
    C8_amended (str "hello") [⟨str "7", str "NUM_000003", 0, 1⟩]
      ⟨str "5", str "NUM_000009", 2, 3⟩ [] ⟨str "AlphaFund", str "Fund006", 0, 9⟩
      (by decide) (by decide)⟩

/-! ## Commutation of global replacement (C9) -/

theorem replaceRun_skip_drop (p r : List Char) :
    ∀ (k : Nat) (l : List Char), replaceRun p r k l = replaceRun p r 0 (l.drop k) := by
  intro k
  induction k with
  | zero => intro l; rfl
  | succ k ih =>
    intro l
    match l with
    | [] => rfl
    | c :: rest => simpa [replaceRun] using ih rest

theorem replaceRun_self_append (p o X : List Char) (hp : p ≠ []) :
    replaceRun p o 0 (p ++ X) = o ++ replaceRun p o 0 X := by
  match p, hp with
  | pc :: pt, hp =>
    have hpre : (pc :: pt).isPrefixOf (pc :: (pt ++ X)) = true :=
      List.isPrefixOf_iff_prefix.mpr ⟨X, by simp⟩
    rw [List.cons_append]
    simp only [replaceRun]
    rw [if_pos ⟨hpre, hp⟩, replaceRun_skip_drop]
    simp only [List.length_cons, Nat.add_sub_cancel]
    rw [List.drop_left]

theorem replaceRun_append_disjoint (p r : List Char) :
    ∀ (u v : List Char), (∀ c ∈ u, c ∉ p) →
      replaceRun p r 0 (u ++ v) = u ++ replaceRun p r 0 v := by
  intro u
  induction u with
  | nil => intro v _; rfl
  | cons c u' ih =>
    intro v hu
    have hneg : ¬((p.isPrefixOf (c :: (u' ++ v))) = true ∧ p ≠ []) := by
      rintro ⟨hpre, hne⟩
      match p, hne, hu with
      | pc :: pt, _, hu =>
        obtain ⟨tl, htl⟩ := List.isPrefixOf_iff_prefix.mp hpre
        rw [List.cons_append] at htl
        have hpc : pc = c := ((List.cons.injEq _ _ _ _).mp htl).1
        exact hu c (List.mem_cons_self _ _)
          (by rw [← hpc]; exact List.mem_cons_self _ _)
    rw [List.cons_append]
    simp only [replaceRun]
    rw [if_neg hneg, ih v fun ch hch => hu ch (List.mem_cons_of_mem _ hch),
      List.cons_append]

theorem isPrefixOf_replaceRun (p1 o1 : List Char) (ho1 : o1 ≠ []) :
    ∀ (s q : List Char), (∀ c ∈ q, c ∉ p1 ∧ c ∉ o1) →
      q.isPrefixOf (replaceRun p1 o1 0 s) = q.isPrefixOf s := by
  intro s
  induction s with
  | nil => intro q _; rfl
  | cons c rest ih =>
    intro q hq
    simp only [replaceRun]
    by_cases hcond : (p1.isPrefixOf (c :: rest)) = true ∧ p1 ≠ []
    · rw [if_pos hcond]
      match q with
      | [] => simp [List.isPrefixOf]
      | qc :: qt =>
        have hqc := hq qc (List.mem_cons_self _ _)
        match o1, ho1 with
        | oc :: ot, _ =>
          have hqoc : (qc == oc) = false := beq_eq_false_iff_ne.mpr
            fun he => hqc.2 (by rw [he]; exact List.mem_cons_self _ _)
          match p1, hcond, hq, hqc with
          | pc :: pt, hcond, hq, hqc =>
            have hpc : pc = c := by
              have h1 := hcond.1
              simp only [List.isPrefixOf, Bool.and_eq_true, beq_iff_eq] at h1
              exact h1.1
            have hqpc : (qc == c) = false := beq_eq_false_iff_ne.mpr
              fun he => hqc.1 (by rw [he, ← hpc]; exact List.mem_cons_self _ _)
            show (qc :: qt).isPrefixOf ((oc :: ot) ++ _) =
              (qc :: qt).isPrefixOf (c :: rest)
            simp only [List.cons_append, List.isPrefixOf, hqoc, hqpc, Bool.false_and]
    · rw [if_neg hcond]
      match q with
      | [] => simp [List.isPrefixOf]
      | qc :: qt =>
        simp only [List.isPrefixOf]
        rw [ih qt fun ch hch => hq ch (List.mem_cons_of_mem _ hch)]

theorem replaceRun_comm (p1 o1 p2 o2 : List Char)
    (hp1 : p1 ≠ []) (hp2 : p2 ≠ []) (ho1 : o1 ≠ []) (ho2 : o2 ≠ [])
    (h12 : ∀ c ∈ p1, c ∉ p2)
    (h2o1 : ∀ c ∈ p2, c ∉ o1) (h1o2 : ∀ c ∈ p1, c ∉ o2) :
    ∀ s, replaceRun p2 o2 0 (replaceRun p1 o1 0 s) =
      replaceRun p1 o1 0 (replaceRun p2 o2 0 s) := by
  have main : ∀ (n : Nat) (s : List Char), s.length ≤ n →
      replaceRun p2 o2 0 (replaceRun p1 o1 0 s) =
        replaceRun p1 o1 0 (replaceRun p2 o2 0 s) := by
    intro n
    induction n with
    | zero =>
      intro s hs
      have : s = [] := List.length_eq_zero.mp (Nat.le_zero.mp hs)
      subst this
      rfl
    | succ n ih =>
      intro s hs
      match s with
      | [] => rfl
      | c :: rest =>
        by_cases h1 : (p1.isPrefixOf (c :: rest)) = true
        · obtain ⟨t2, ht2⟩ := List.isPrefixOf_iff_prefix.mp h1
          rw [← ht2]
          have hlen : t2.length ≤ n := by
            have hlc := congrArg List.length ht2
            have hp1l : 0 < p1.length := List.length_pos.mpr hp1
            simp only [List.length_append, List.length_cons] at hlc hs
            omega
          rw [replaceRun_self_append _ _ _ hp1,
            replaceRun_append_disjoint p2 o2 p1 _ fun ch hc hc2 => h12 ch hc hc2,
            replaceRun_append_disjoint p2 o2 o1 _ fun ch hc hc2 => h2o1 ch hc2 hc,
            replaceRun_self_append _ _ _ hp1, ih t2 hlen]
        · by_cases h2 : (p2.isPrefixOf (c :: rest)) = true
          · obtain ⟨t2, ht2⟩ := List.isPrefixOf_iff_prefix.mp h2
            rw [← ht2]
            have hlen : t2.length ≤ n := by
              have hlc := congrArg List.length ht2
              have hp2l : 0 < p2.length := List.length_pos.mpr hp2
              simp only [List.length_append, List.length_cons] at hlc hs
              omega
            rw [replaceRun_self_append _ _ _ hp2,
              replaceRun_append_disjoint p1 o1 p2 _ fun ch hc hc2 => h12 ch hc2 hc,
              replaceRun_append_disjoint p1 o1 o2 _ fun ch hc hc2 => h1o2 ch hc2 hc,
              replaceRun_self_append _ _ _ hp2, ih t2 hlen]
          · have hrest : rest.length ≤ n := by
              simp only [List.length_cons] at hs
              omega
            have hnc1 : ¬((p1.isPrefixOf (c :: rest)) = true ∧ p1 ≠ []) :=
              fun hc => h1 hc.1
            have hnc2 : ¬((p2.isPrefixOf (c :: rest)) = true ∧ p2 ≠ []) :=
              fun hc => h2 hc.1
            have hR1 : replaceRun p1 o1 0 (c :: rest) =
                c :: replaceRun p1 o1 0 rest := by
              simp only [replaceRun]
              rw [if_neg hnc1]
            have hR2 : replaceRun p2 o2 0 (c :: rest) =
                c :: replaceRun p2 o2 0 rest := by
              simp only [replaceRun]
              rw [if_neg hnc2]
            have hpre2 : p2.isPrefixOf (c :: replaceRun p1 o1 0 rest) = false := by
              have hinv := isPrefixOf_replaceRun p1 o1 ho1 (c :: rest) p2
                fun ch hch => ⟨fun hch1 => h12 ch hch1 hch, h2o1 ch hch⟩
              rw [hR1] at hinv
              rw [hinv]
              exact eq_false_of_ne_true h2
            have hpre1 : p1.isPrefixOf (c :: replaceRun p2 o2 0 rest) = false := by
              have hinv := isPrefixOf_replaceRun p2 o2 ho2 (c :: rest) p1
                fun ch hch => ⟨h12 ch hch, h1o2 ch hch⟩
              rw [hR2] at hinv
              rw [hinv]
              exact eq_false_of_ne_true h1
            rw [hR1, hR2]
            have hs1 : replaceRun p2 o2 0 (c :: replaceRun p1 o1 0 rest) =
                c :: replaceRun p2 o2 0 (replaceRun p1 o1 0 rest) := by
              simp only [replaceRun]
              rw [if_neg fun hc => by rw [hpre2] at hc; exact absurd hc.1 (by simp)]
            have hs2 : replaceRun p1 o1 0 (c :: replaceRun p2 o2 0 rest) =
                c :: replaceRun p1 o1 0 (replaceRun p2 o2 0 rest) := by
              simp only [replaceRun]
              rw [if_neg fun hc => by rw [hpre1] at hc; exact absurd hc.1 (by simp)]
            rw [hs1, hs2, ih rest hrest]
  intro s
  exact main s.length s (le_refl _)

theorem foldl_perm_of_comm {α β : Type} (f : β → α → β) :
    ∀ {l l' : List α}, l.Perm l' →
      (∀ x ∈ l, ∀ y ∈ l, ∀ z, f (f z x) y = f (f z y) x) →
      ∀ b, l.foldl f b = l'.foldl f b := by
  intro l l' hperm
  induction hperm with
  | nil => intro _ b; rfl
  | cons x hp ih =>
    intro hc b
    simp only [List.foldl_cons]
    exact ih (fun a ha b hb => hc a (List.mem_cons_of_mem _ ha)
      b (List.mem_cons_of_mem _ hb)) _
  | swap x y l =>
    intro hc b
    simp only [List.foldl_cons]
    rw [hc y (List.mem_cons_self _ _) x (List.mem_cons_of_mem _ (List.mem_cons_self _ _))]
  | trans h1 h2 ih1 ih2 =>
    intro hc b
    rw [ih1 hc b]
    exact ih2 (fun a ha bb hb =>
      hc a (h1.mem_iff.mpr ha) bb (h1.mem_iff.mpr hb)) b

/-! ## C9: order-independence of deobfuscation -/

/-- C9 counterexample: the result of `deobfuscate_fund_names` is **not**
order-independent for every mapping.  With text `"Fund001"` and the two records
`{placeholder "Fund001", original "Fund002"}` and
`{placeholder "Fund002", original "x"}` (a permutation of each other), one order
yields `"x"` and the other `"Fund002"`, because the first record's original
contains the second record's placeholder. -/
theorem C9_counterexample :
    deobfuscate_fund_names (str "Fund001")
        [⟨str "Fund002", str "Fund001", 0, 7⟩, ⟨str "x", str "Fund002", 0, 7⟩] =
      str "x"
    ∧ deobfuscate_fund_names (str "Fund001")
        [⟨str "x", str "Fund002", 0, 7⟩, ⟨str "Fund002", str "Fund001", 0, 7⟩] =
      str "Fund002"
    ∧ List.Perm
        [(⟨str "Fund002", str "Fund001", 0, 7⟩ : ObfRecord),
         ⟨str "x", str "Fund002", 0, 7⟩]
        [⟨str "x", str "Fund002", 0, 7⟩, ⟨str "Fund002", str "Fund001", 0, 7⟩] := by
  refine ⟨by decide, by decide, List.Perm.swap _ _ _⟩

/-! ## Bounds of the numeric matcher -/

theorem digitRun_le : ∀ l : List Char, digitRun l ≤ l.length := by
  intro l
  induction l with
  | nil => simp [digitRun]
  | cons c rest ih =>
    simp only [digitRun, List.length_cons]
    split
    · omega
    · omega

theorem commaReps_le (l : List Char) : 4 * commaReps l ≤ l.length := by
  have H : ∀ (n : Nat) (l : List Char), l.length ≤ n → 4 * commaReps l ≤ l.length := by
    intro n
    induction n with
    | zero =>
      intro l hl
      have hnil : l = [] := List.eq_nil_of_length_eq_zero (Nat.le_zero.mp hl)
      subst hnil
      show 4 * 0 ≤ 0
      omega
    | succ n ih =>
      intro l hl
      match l with
      | [] =>
        show 4 * 0 ≤ 0
        omega
      | [c] =>
        show 4 * 0 ≤ 1
        omega
      | [c, a] =>
        show 4 * 0 ≤ 2
        omega
      | [c, a, b] =>
        show 4 * 0 ≤ 3
        omega
      | c :: a :: b :: d :: rest =>
        simp only [commaReps, List.length_cons]
        split
        · have hr := ih rest (by simp only [List.length_cons] at hl; omega)
          omega
        · omega
  exact H l.length l (le_refl _)

theorem alt2Tail_le : ∀ {l : List Char} {t : Nat}, alt2Tail l = some t → t ≤ l.length := by
  intro l t h
  match l with
  | [] =>
    simp only [alt2Tail, Option.some.injEq] at h
    omega
  | c :: r2 =>
    simp only [alt2Tail] at h
    split at h
    · split at h
      · simp only [Option.some.injEq] at h
        have := digitRun_le r2
        simp only [List.length_cons]
        omega
      · simp only [Option.some.injEq] at h
        omega
    · split at h
      · exact absurd h (by simp)
      · simp only [Option.some.injEq] at h
        omega

theorem alt2Reps_le :
    ∀ (r : Nat) (l : List Char) (t : Nat), 4 * r ≤ l.length →
      alt2Reps l r = some t → t ≤ l.length := by
  intro r
  induction r with
  | zero =>
    intro l t _ h
    simp only [alt2Reps] at h
    cases hh : alt2Tail l with
    | none => rw [hh] at h; exact absurd h (by simp)
    | some t2 =>
      rw [hh] at h
      simp only [Option.some.injEq] at h
      subst h
      exact alt2Tail_le hh
  | succ r ih =>
    intro l t hb h
    simp only [alt2Reps] at h
    cases hh : alt2Tail (l.drop (4 * (r + 1))) with
    | none =>
      rw [hh] at h
      exact ih l t (by omega) h
    | some t2 =>
      rw [hh] at h
      simp only [Option.some.injEq] at h
      have := alt2Tail_le hh
      simp only [List.length_drop] at this
      omega

theorem matchAlt1_bounds : ∀ {l : List Char} {n : Nat}, matchAlt1 l = some n →
    1 ≤ n ∧ n ≤ l.length := by
  intro l n h
  match l with
  | [] => exact absurd h (by simp [matchAlt1])
  | c :: rest =>
    simp only [matchAlt1] at h
    split at h
    · split at h
      · exact absurd h (by simp)
      · simp only [Option.some.injEq] at h
        have hm := digitRun_le rest
        have hk : min 3 (digitRun rest) ≤ digitRun rest := Nat.min_le_right _ _
        have hr := commaReps_le (rest.drop (min 3 (digitRun rest)))
        simp only [List.length_drop] at hr
        have hd : (match rest.drop (min 3 (digitRun rest)) |>.drop
              (4 * commaReps (rest.drop (min 3 (digitRun rest)))) with
            | [] => 0
            | e :: r2 =>
              if e = '.' then (if digitRun r2 = 0 then 0 else 1 + digitRun r2)
              else 0) ≤
            ((rest.drop (min 3 (digitRun rest))).drop
              (4 * commaReps (rest.drop (min 3 (digitRun rest))))).length := by
          split
          · omega
          · rename_i x e r2 heq
            rw [heq]
            split
            · split
              · omega
              · have h5 := digitRun_le r2
                calc 1 + digitRun r2 ≤ r2.length + 1 := by omega
                  _ = (e :: r2).length := rfl
            · omega
        simp only [List.length_drop] at hd
        simp only [List.length_cons]
        omega
    · exact absurd h (by simp)

theorem matchAlt2_bounds : ∀ {prev : Option Char} {l : List Char} {n : Nat},
    matchAlt2 prev l = some n → 1 ≤ n ∧ n ≤ l.length := by
  intro prev l n h
  simp only [matchAlt2] at h
  split at h
  · split at h
    · cases ht : alt2Reps (l.drop (digitRun l)) (commaReps (l.drop (digitRun l))) with
      | none => rw [ht] at h; exact absurd h (by simp)
      | some t =>
        rw [ht] at h
        simp only [Option.some.injEq] at h
        have hb : 4 * commaReps (l.drop (digitRun l)) ≤ (l.drop (digitRun l)).length :=
          commaReps_le _
        have := alt2Reps_le _ _ _ hb ht
        simp only [List.length_drop] at this
        have hdl := digitRun_le l
        omega
    · exact absurd h (by simp)
  · exact absurd h (by simp)

theorem matchAlt3_bounds : ∀ {prev : Option Char} {l : List Char} {n : Nat},
    matchAlt3 prev l = some n → 1 ≤ n ∧ n ≤ l.length := by
  intro prev l n h
  simp only [matchAlt3] at h
  split at h
  · split at h
    · exact absurd h (by simp)
    · split at h
      · exact absurd h (by simp)
      · rename_i e r2 heq
        split at h
        · simp only [Option.some.injEq] at h
          have hlen : (l.drop (digitRun l)).length = l.length - digitRun l :=
            List.length_drop _ _
          rw [heq] at hlen
          simp only [List.length_cons] at hlen
          have := digitRun_le l
          omega
        · exact absurd h (by simp)
  · exact absurd h (by simp)

theorem matchAt_bounds : ∀ {prev : Option Char} {l : List Char} {n : Nat},
    matchAt prev l = some n → 1 ≤ n ∧ n ≤ l.length := by
  intro prev l n h
  simp only [matchAt] at h
  cases h1 : matchAlt1 l with
  | some m =>
    rw [h1] at h
    simp only [Option.some.injEq] at h
    exact h ▸ matchAlt1_bounds h1
  | none =>
    rw [h1] at h
    cases h2 : matchAlt2 prev l with
    | some m =>
      rw [h2] at h
      simp only [Option.some.injEq] at h
      exact h ▸ matchAlt2_bounds h2
    | none =>
      rw [h2] at h
      exact matchAlt3_bounds h

/-! ## Characterization of the scan -/

theorem findRun_spec (S : List Char) :
    ∀ (l : List Char) (i skip : Nat) (prev : Option Char),
      l = S.drop i → prev = prevCharOf S i →
      (∀ p ∈ findRun skip prev i l,
        i + skip ≤ p.1 ∧ 0 < p.2 ∧ p.1 + p.2 ≤ S.length ∧
          matchAt (prevCharOf S p.1) (S.drop p.1) = some p.2)
      ∧ List.Pairwise (fun a b : Nat × Nat => a.1 + a.2 ≤ b.1)
          (findRun skip prev i l) := by
  intro l
  induction l with
  | nil =>
    intro i skip prev _ _
    constructor
    · intro p hp
      simp [findRun] at hp
    · cases skip <;> exact List.Pairwise.nil
  | cons c rest ih =>
    intro i skip prev hl hprev
    have hci : S.get? i = some c := by
      have h0 := List.getElem?_drop S i 0
      rw [← hl] at h0
      simp only [List.getElem?_cons_zero] at h0
      rw [List.get?_eq_getElem?]
      simpa using h0.symm
    have hrest : rest = S.drop (i + 1) := by
      have h1 : (S.drop i).drop 1 = S.drop (i + 1) := List.drop_drop 1 i S
      rw [← hl] at h1
      simpa using h1
    have hprev1 : (some c : Option Char) = prevCharOf S (i + 1) := by
      simp only [prevCharOf, if_neg (Nat.succ_ne_zero i), Nat.add_sub_cancel]
      exact hci.symm
    have hlenS : i < S.length := by
      by_contra hgt
      push_neg at hgt
      rw [List.drop_of_length_le hgt] at hl
      exact absurd hl (by simp)
    match skip with
    | sk + 1 =>
      simp only [findRun]
      have hih := ih (i + 1) sk (some c) hrest hprev1
      refine ⟨fun p hp => ?_, hih.2⟩
      have h := hih.1 p hp
      exact ⟨by omega, h.2.1, h.2.2⟩
    | 0 =>
      simp only [findRun]
      cases hm : matchAt prev (c :: rest) with
      | none =>
        have hih := ih (i + 1) 0 (some c) hrest hprev1
        refine ⟨fun p hp => ?_, hih.2⟩
        have h := hih.1 p hp
        exact ⟨by omega, h.2.1, h.2.2⟩
      | some n =>
        have hn := matchAt_bounds hm
        have hlen : (c :: rest).length = S.length - i := by
          rw [hl, List.length_drop]
        have hih := ih (i + 1) (n - 1) (some c) hrest hprev1
        constructor
        · intro p hp
          rcases List.mem_cons.mp hp with rfl | hp'
          · refine ⟨by omega, by omega, by omega, ?_⟩
            rw [← hl, ← hprev]
            exact hm
          · have h := hih.1 p hp'
            exact ⟨by omega, h.2.1, h.2.2⟩
        · refine List.Pairwise.cons ?_ hih.2
          intro p hp
          have h := (hih.1 p hp).1
          omega

/-! ## Splice structure of the masked text -/

theorem slice_zero (T : List Char) (a : Nat) : slice T 0 a = T.take a := rfl

theorem slice_eq_drop_take (T : List Char) (a b : Nat) :
    slice T a b = (T.drop a).take (b - a) := by
  simp only [slice, List.drop_take]

theorem foldl_applySub_spliced :
    ∀ (rl : List MaskRecord) (T : List Char),
      (∀ r ∈ rl, r.start ≤ r.stop ∧ r.stop ≤ T.length) →
      List.Pairwise (fun a b : MaskRecord => a.stop ≤ b.start) rl →
      rl.reverse.foldl applySub T = splicedFrom T 0 (rl.map tripleOf) := by
  intro rl
  induction rl with
  | nil => intro T _ _; rfl
  | cons r0 rest ih =>
    intro T hb hp
    have hrev : (r0 :: rest).reverse = rest.reverse ++ [r0] := by simp
    rw [hrev, List.foldl_append,
      ih T (fun r hr => hb r (List.mem_cons_of_mem _ hr)) (List.pairwise_cons.mp hp).2]
    have h0 : r0.start ≤ r0.stop ∧ r0.stop ≤ T.length := hb r0 (List.mem_cons_self _ _)
    cases rest with
    | nil => rfl
    | cons r1 rest2 =>
      have h01 : r0.stop ≤ r1.start :=
        (List.pairwise_cons.mp hp).1 r1 (List.mem_cons_self _ _)
      have h1 : r1.start ≤ r1.stop ∧ r1.stop ≤ T.length :=
        hb r1 (List.mem_cons_of_mem _ (List.mem_cons_self _ _))
      have hlen1 : (T.take r1.start).length = r1.start := by
        rw [List.length_take]
        omega
      have htake2 : (T.take r1.start ++ r1.masked ++
          splicedFrom T r1.stop (rest2.map tripleOf)).take r0.start =
          T.take r0.start := by
        rw [List.append_assoc, List.take_append_of_le_length (by omega),
          List.take_take, Nat.min_eq_left (by omega)]
      have hdrop2 : (T.take r1.start ++ r1.masked ++
          splicedFrom T r1.stop (rest2.map tripleOf)).drop r0.stop =
          slice T r0.stop r1.start ++ (r1.masked ++
            splicedFrom T r1.stop (rest2.map tripleOf)) := by
        rw [List.append_assoc, List.drop_append_of_le_length (by omega)]
        rfl
      show applySub (splicedFrom T 0 (List.map tripleOf (r1 :: rest2))) r0 = _
      have hsp : splicedFrom T 0 (List.map tripleOf (r1 :: rest2)) =
          T.take r1.start ++ r1.masked ++
            splicedFrom T r1.stop (rest2.map tripleOf) := rfl
      rw [hsp]
      simp only [applySub]
      rw [htake2, hdrop2]
      simp only [List.map_cons, splicedFrom, slice_zero, List.append_assoc]

theorem mask_records_eq (counter : Nat) (T : List Char) :
    (mask_numerical_values counter T).2.1 =
      (findFrom none 0 T).enum.map fun p =>
        { original := slice T p.2.1 (p.2.1 + p.2.2)
          masked := numPlaceholder (counter + p.1)
          start := p.2.1
          stop := p.2.1 + p.2.2 : MaskRecord } := rfl

theorem mem_mask_records {counter : Nat} {T : List Char} {r : MaskRecord}
    (hr : r ∈ (mask_numerical_values counter T).2.1) :
    ∃ k p, (k, p) ∈ (findFrom none 0 T).enum ∧ p ∈ findFrom none 0 T ∧
      r = { original := slice T p.1 (p.1 + p.2)
            masked := numPlaceholder (counter + k)
            start := p.1
            stop := p.1 + p.2 : MaskRecord } := by
  rw [mask_records_eq] at hr
  obtain ⟨q, hq, hfq⟩ := List.mem_map.mp hr
  refine ⟨q.1, q.2, hq, ?_, hfq.symm⟩
  have hg := List.mem_enum_iff_getElem?.mp (by simpa using hq)
  obtain ⟨hlt, he⟩ := List.getElem?_eq_some.mp hg
  exact he ▸ List.getElem_mem hlt

theorem mask_record_facts {counter : Nat} {T : List Char} {r : MaskRecord}
    (hr : r ∈ (mask_numerical_values counter T).2.1) :
    r.original = slice T r.start r.stop ∧ r.start ≤ r.stop ∧ r.stop ≤ T.length ∧
      (∃ k, r.masked = numPlaceholder (counter + k)) := by
  obtain ⟨k, p, _, hpm, rfl⟩ := mem_mask_records hr
  have hs := (findRun_spec T T 0 0 none rfl rfl).1 p hpm
  refine ⟨rfl, ?_, ?_, ⟨k, rfl⟩⟩
  · show p.1 ≤ p.1 + p.2
    omega
  · show p.1 + p.2 ≤ T.length
    exact hs.2.2.1

theorem mask_records_sorted (counter : Nat) (T : List Char) :
    List.Pairwise (fun a b : MaskRecord => a.stop ≤ b.start)
      (mask_numerical_values counter T).2.1 := by
  rw [mask_records_eq]
  rw [List.pairwise_map]
  have hms : List.Pairwise (fun a b : Nat × Nat => a.1 + a.2 ≤ b.1)
      (findFrom none 0 T) := (findRun_spec T T 0 0 none rfl rfl).2
  have henum : List.Pairwise (fun a b : Nat × (Nat × Nat) => a.2.1 + a.2.2 ≤ b.2.1)
      (findFrom none 0 T).enum := by
    rw [← List.enum_map_snd (findFrom none 0 T), List.pairwise_map] at hms
    exact hms
  exact henum.imp fun h => h

theorem mask_spliced (counter : Nat) (T : List Char) :
    (mask_numerical_values counter T).1 =
      splicedFrom T 0 ((mask_numerical_values counter T).2.1.map tripleOf) := by
  have hb : ∀ r ∈ (mask_numerical_values counter T).2.1,
      r.start ≤ r.stop ∧ r.stop ≤ T.length := by
    intro r hr
    have := mask_record_facts hr
    exact ⟨this.2.1, this.2.2.1⟩
  exact foldl_applySub_spliced _ T hb (mask_records_sorted counter T)

/-! ## C6: match collection and replacement mechanics -/

/-- C6: masking collects all matches left-to-right, non-overlapping, over the
original text (each recorded span satisfies the pattern at its own position in the
original text, spans are strictly ordered and disjoint); each record stores the
matched text verbatim — the `[start, stop)` slice of the original — and the masked
text equals the canonical result of applying the substitutions by descending start
offset: the gaps of the original interleaved with the placeholders. -/
theorem C6_replacement_mechanics (counter : Nat) (T : List Char) :
    (∀ p ∈ findFrom none 0 T,
      0 < p.2 ∧ p.1 + p.2 ≤ T.length ∧
        matchAt (prevCharOf T p.1) (T.drop p.1) = some p.2)
    ∧ List.Pairwise (fun a b : Nat × Nat => a.1 + a.2 ≤ b.1) (findFrom none 0 T)
    ∧ (∀ r ∈ (mask_numerical_values counter T).2.1,
        r.original = slice T r.start r.stop ∧
        r.original = (T.drop r.start).take (r.stop - r.start) ∧
        r.start ≤ r.stop ∧ r.stop ≤ T.length)
    ∧ List.Pairwise (fun a b : MaskRecord => a.stop ≤ b.start)
        (mask_numerical_values counter T).2.1
    ∧ (mask_numerical_values counter T).1 =
        splicedFrom T 0 ((mask_numerical_values counter T).2.1.map tripleOf) := by
  refine ⟨?_, (findRun_spec T T 0 0 none rfl rfl).2, ?_,
    mask_records_sorted counter T, mask_spliced counter T⟩
  · intro p hp
    have := (findRun_spec T T 0 0 none rfl rfl).1 p hp
    exact ⟨this.2.1, this.2.2.1, this.2.2.2⟩
  · intro r hr
    have h := mask_record_facts hr
    exact ⟨h.1, by rw [h.1, slice_eq_drop_take], h.2.1, h.2.2.1⟩

/-! ## C5: digit groups inside dates -/

/-- C5 counterexample: on the input `"03/15/2020"` the numeric pattern matches the
groups `"03"` and `"15"` but the four-digit group `"2020"` is never matched — no
record carries it as original, and it survives verbatim in the masked text — so the
claim that `"2020"` is matched and replaced by a placeholder is false. -/
theorem C5_counterexample :
    (∀ r ∈ (mask_numerical_values 0 (str "03/15/2020")).2.1,
        r.original ≠ str "2020")
    ∧ (mask_numerical_values 0 (str "03/15/2020")).1 =
        str "NUM_000000/NUM_000001/2020" := by decide

/-- C5 amended: masking `"03/15/2020"` matches exactly the bare digit groups `"03"`
(span `[0,2)`) and `"15"` (span `[3,5)`), masks each as a number, and leaves the
four-digit group `"2020"` unmatched and verbatim in the masked output. -/
theorem C5_amended :
    (mask_numerical_values 0 (str "03/15/2020")).2.1 =
      [⟨str "03", str "NUM_000000", 0, 2⟩, ⟨str "15", str "NUM_000001", 3, 5⟩]
    ∧ (mask_numerical_values 0 (str "03/15/2020")).1 =
        str "NUM_000000/NUM_000001/2020" := by decide

/-! ## C2: case-insensitive entity matching -/

/-- C2: the code contradicts the claim at the failing input `"masterfund1"`.  The
whole-word case-insensitive matcher does find the registered name, but
`placeholder_mapping[match.group()]` is looked up with the matched casing while the
dict is keyed by the registered casing, so `obfuscate_fund_names` raises `KeyError`
instead of replacing the occurrence and recording it. -/
theorem C2_keyError :
    findFundsFrom initObfuscator.master_fund_names none 0 (str "masterfund1") =
      [(0, 11)]
    ∧ obfuscate_fund_names initObfuscator (str "masterfund1") =
        Except.error (PyError.keyError (str "masterfund1")) := ⟨by decide, by rfl⟩

/-! ## C4: persistence entry points on missing/corrupt files -/

/-- C4 counterexample: `load_masking_info` on a missing file raises
`FileNotFoundError` out of the method (no recoverable fallback), contradicting the
claim that every load entry point fails recoverably with a default mapping. -/
theorem C4_counterexample :
    load_masking_info ⟨[], 0⟩ FileRead.missing =
      Except.error PyError.fileNotFound := by rfl

/-- C4 amended: of the three load entry points, only `load_fund_names` handles a
missing or corrupt file (keeping the current names); `load_masking_info` and
`load_obfuscation_info` propagate `FileNotFoundError` / `JSONDecodeError` unhandled. -/
theorem C4_amended (eng : DataMaskingEngine) (ob : FundNameObfuscator) :
    load_fund_names ob FileRead.missing = Except.ok ob
    ∧ load_fund_names ob FileRead.corrupt = Except.ok ob
    ∧ load_masking_info eng FileRead.missing = Except.error PyError.fileNotFound
    ∧ load_masking_info eng FileRead.corrupt = Except.error PyError.jsonDecode
    ∧ load_obfuscation_info ob FileRead.missing = Except.error PyError.fileNotFound
    ∧ load_obfuscation_info ob FileRead.corrupt = Except.error PyError.jsonDecode :=
  ⟨rfl, rfl, rfl, rfl, rfl, rfl⟩

/-! ## Occurrence decomposition and placeholder shape (towards C1) -/

theorem occurs_iff {pat : List Char} :
    ∀ {t : List Char}, occurs pat t = true ↔ ∃ u v, t = u ++ pat ++ v := by
  intro t
  induction t with
  | nil =>
    simp only [occurs, List.isEmpty_iff]
    constructor
    · rintro rfl; exact ⟨[], [], rfl⟩
    · rintro ⟨u, v, huv⟩
      have := huv.symm
      simp only [List.append_eq_nil] at this
      exact this.1.2
  | cons c rest ih =>
    simp only [occurs, Bool.or_eq_true]
    constructor
    · rintro (hpre | hocc)
      · obtain ⟨w, hw⟩ := List.isPrefixOf_iff_prefix.mp hpre
        exact ⟨[], w, by rw [← hw]; rfl⟩
      · obtain ⟨u, v, huv⟩ := ih.mp hocc
        exact ⟨c :: u, v, by rw [huv]; rfl⟩
    · rintro ⟨u, v, huv⟩
      match u with
      | [] =>
        left
        exact List.isPrefixOf_iff_prefix.mpr ⟨v, by rw [huv]; rfl⟩
      | x :: u2 =>
        right
        apply ih.mpr
        refine ⟨u2, v, ?_⟩
        have h2 : c :: rest = x :: (u2 ++ pat ++ v) := huv
        exact ((List.cons.injEq _ _ _ _).mp h2).2

theorem occurs_false_within {pat t T : List Char} (hT : occurs pat T = false)
    (ht : t <:+: T) : occurs pat t = false := by
  by_contra h
  have h1 : occurs pat t = true := by
    cases h2 : occurs pat t with
    | false => exact absurd h2 h
    | true => rfl
  obtain ⟨u, v, rfl⟩ := occurs_iff.mp h1
  obtain ⟨x, y, hxy⟩ := ht
  have h3 : occurs pat T = true := occurs_iff.mpr
    ⟨x ++ u, v ++ y, by rw [← hxy]; simp [List.append_assoc]⟩
  rw [hT] at h3
  exact absurd h3 (by simp)

theorem slice_infix_whole (T : List Char) (a b : Nat) : slice T a b <:+: T :=
  ⟨(T.take b).take a, T.drop b, by
    show (T.take b).take a ++ (T.take b).drop a ++ T.drop b = T
    rw [List.take_append_drop, List.take_append_drop]⟩

theorem drop_infix_whole (T : List Char) (a : Nat) : T.drop a <:+: T :=
  ⟨T.take a, [], by rw [List.append_nil, List.take_append_drop]⟩

theorem take_of_isPrefixOf {p x : List Char} (h : p.isPrefixOf x = true) :
    x.take p.length = p := by
  obtain ⟨w, rfl⟩ := List.isPrefixOf_iff_prefix.mp h
  exact List.take_left p w

theorem get?_of_isPrefixOf {p x : List Char} (h : p.isPrefixOf x = true)
    {j : Nat} (hj : j < p.length) : x.get? j = p.get? j := by
  obtain ⟨w, rfl⟩ := List.isPrefixOf_iff_prefix.mp h
  exact List.get?_append hj

theorem get?_drop_add (l : List Char) (t j : Nat) :
    (l.drop t).get? j = l.get? (t + j) := by
  rw [List.get?_eq_getElem?, List.get?_eq_getElem?, List.getElem?_drop]

theorem get?_append_length (l1 l2 : List Char) :
    (l1 ++ l2).get? l1.length = l2.get? 0 := by
  rw [List.get?_eq_getElem?, List.get?_eq_getElem?,
    List.getElem?_append_right le_rfl, Nat.sub_self]

theorem natDigitsAux_eq :
    ∀ (fuel n : Nat), n ≤ fuel →
      natDigitsAux fuel n = (Nat.digits 10 n).reverse.map digitChar := by
  intro fuel
  induction fuel with
  | zero =>
    intro n hn
    have : n = 0 := Nat.le_zero.mp hn
    subst this
    simp [natDigitsAux]
  | succ f ih =>
    intro n hn
    match n with
    | 0 => simp [natDigitsAux]
    | m + 1 =>
      have hdiv : (m + 1) / 10 ≤ f := by
        have := Nat.div_lt_self (Nat.succ_pos m) (by norm_num : 1 < 10)
        omega
      show natDigitsAux f ((m + 1) / 10) ++ [digitChar ((m + 1) % 10)] = _
      rw [ih _ hdiv, Nat.digits_def' (by norm_num : 1 < 10) (Nat.succ_pos m)]
      simp

theorem natDigits_eq (n : Nat) :
    natDigits n = (Nat.digits 10 n).reverse.map digitChar :=
  natDigitsAux_eq n n le_rfl

theorem natDigits_length_le {n : Nat} (h : n < 1000000) :
    (natDigits n).length ≤ 6 := by
  rw [natDigits_eq]
  simp only [List.length_map, List.length_reverse]
  by_contra hgt
  push_neg at hgt
  rcases Nat.eq_zero_or_pos n with rfl | hn
  · simp at hgt
  · have hb := Nat.base_pow_length_digits_le 10 n (by norm_num) (by omega)
    have h7 : (10 : Nat) ^ 7 ≤ 10 ^ (Nat.digits 10 n).length :=
      Nat.pow_le_pow_right (by norm_num) hgt
    have : (10 : Nat) ^ 7 ≤ 10 * n := le_trans h7 hb
    norm_num at this
    omega

theorem pad6_length {n : Nat} (h : n < 1000000) : (pad6 n).length = 6 := by
  simp only [pad6, List.length_append, List.length_replicate]
  have := natDigits_length_le h
  omega

theorem numPlaceholder_length {n : Nat} (h : n < 1000000) :
    (numPlaceholder n).length = 10 := by
  simp only [numPlaceholder, List.length_cons, pad6_length h]

theorem digitChar_isDigit {d : Nat} (h : d < 10) : (digitChar d).isDigit = true := by
  interval_cases d <;> decide

theorem pad6_all_digit {n : Nat} : ∀ c ∈ pad6 n, c.isDigit = true := by
  intro c hc
  rcases List.mem_append.mp hc with h | h
  · rw [List.eq_of_mem_replicate h]; decide
  · rw [natDigits_eq] at h
    obtain ⟨d, hd, rfl⟩ := List.mem_map.mp h
    exact digitChar_isDigit
      (Nat.digits_lt_base (by norm_num) (List.mem_reverse.mp hd))

theorem numPlaceholder_get_zero (k : Nat) :
    (numPlaceholder k).get? 0 = some 'N' := rfl

theorem numPlaceholder_ne_nil (k : Nat) : numPlaceholder k ≠ [] := by
  simp [numPlaceholder]

theorem numPlaceholder_tail_ne_N (k : Nat) :
    ∀ j c, (numPlaceholder k).get? (j + 1) = some c → c ≠ 'N' := by
  intro j c hc
  have hc2 : ('U' :: 'M' :: '_' :: pad6 k).get? j = some c := by
    rw [← hc]; rfl
  have hmem := List.get?_mem hc2
  simp only [List.mem_cons] at hmem
  rcases hmem with rfl | rfl | rfl | h
  · decide
  · decide
  · decide
  · intro hN
    rw [hN] at h
    exact absurd (pad6_all_digit 'N' h) (by decide)

theorem noStart_of_within {p g sfx : List Char} (hocc : occurs p g = false)
    {t : Nat} (hle : t + p.length ≤ g.length) :
    ¬ p.isPrefixOf ((g ++ sfx).drop t) = true := by
  intro hpre
  have hdrop : (g ++ sfx).drop t = g.drop t ++ sfx :=
    List.drop_append_of_le_length (by omega)
  rw [hdrop] at hpre
  have htake : (g.drop t ++ sfx).take p.length = p := take_of_isPrefixOf hpre
  rw [List.take_append_of_le_length (by rw [List.length_drop]; omega)] at htake
  have hg : g = g.take t ++ p ++ (g.drop t).drop p.length := by
    conv_lhs => rw [← List.take_append_drop t g]
    rw [List.append_assoc]
    congr 1
    conv_lhs => rw [← List.take_append_drop p.length (g.drop t)]
    rw [htake]
  have h2 : occurs p g = true := occurs_iff.mpr ⟨g.take t, (g.drop t).drop p.length, hg⟩
  rw [hocc] at h2
  exact absurd h2 (by simp)

theorem noStart_crossing {p g sfx : List Char}
    (hocc : occurs p g = false)
    (hsfx : sfx.get? 0 = some 'N')
    (hN : ∀ j c, p.get? (j + 1) = some c → c ≠ 'N')
    {t : Nat} (ht : t < g.length) :
    ¬ p.isPrefixOf ((g ++ sfx).drop t) = true := by
  intro hpre
  by_cases hle : t + p.length ≤ g.length
  · exact noStart_of_within hocc hle hpre
  · push_neg at hle
    have hj : g.length - t < p.length := by omega
    have h1 : ((g ++ sfx).drop t).get? (g.length - t) = p.get? (g.length - t) :=
      get?_of_isPrefixOf hpre hj
    rw [get?_drop_add] at h1
    have ht2 : t + (g.length - t) = g.length := by omega
    rw [ht2, get?_append_length, hsfx] at h1
    obtain ⟨j, hjeq⟩ : ∃ j, g.length - t = j + 1 := ⟨g.length - t - 1, by omega⟩
    rw [hjeq] at h1
    exact hN j 'N' h1.symm rfl

theorem length_pos_of_get_zero {p : List Char} {a : Char} (h : p.get? 0 = some a) :
    0 < p.length := by
  match p with
  | [] => exact absurd h (by simp)
  | c :: rest => simp

theorem noStart_in_other_placeholder {p q sfx : List Char}
    (hlen : p.length = q.length) (hne : p ≠ q)
    (hN : ∀ j c, q.get? (j + 1) = some c → c ≠ 'N')
    (hp0 : p.get? 0 = some 'N')
    {t : Nat} (ht : t < q.length) :
    ¬ p.isPrefixOf ((q ++ sfx).drop t) = true := by
  intro hpre
  match t with
  | 0 =>
    have htake := take_of_isPrefixOf hpre
    rw [List.drop_zero, hlen, List.take_left] at htake
    exact hne (htake ▸ rfl)
  | t + 1 =>
    have h1 : ((q ++ sfx).drop (t + 1)).get? 0 = p.get? 0 :=
      get?_of_isPrefixOf hpre (length_pos_of_get_zero hp0)
    rw [get?_drop_add, hp0] at h1
    have h2 : (q ++ sfx).get? (t + 1 + 0) = q.get? (t + 1) := by
      rw [Nat.add_zero]
      exact List.get?_append ht
    rw [h2] at h1
    exact hN t 'N' h1 rfl

/-! ## Splice decomposition utilities -/

theorem splicedFrom_eq_pre :
    ∀ (tri : List (Nat × Nat × List Char)) (T : List Char) (pos : Nat),
      splicedFrom T pos tri = splicedPre T pos tri ++ T.drop (endPos pos tri) := by
  intro tri
  induction tri with
  | nil => intro T pos; simp [splicedFrom, splicedPre, endPos]
  | cons trip rest ih =>
    obtain ⟨s, e, m⟩ := trip
    intro T pos
    simp only [splicedFrom, splicedPre, endPos, ih, List.append_assoc]

theorem splicedPre_append_single :
    ∀ (tri : List (Nat × Nat × List Char)) (T : List Char) (pos s e : Nat)
      (m : List Char),
      splicedPre T pos (tri ++ [(s, e, m)]) =
        splicedPre T pos tri ++ slice T (endPos pos tri) s ++ m := by
  intro tri
  induction tri with
  | nil => intro T pos s e m; simp [splicedPre, endPos]
  | cons trip rest ih =>
    obtain ⟨s0, e0, m0⟩ := trip
    intro T pos s e m
    rw [List.cons_append]
    show slice T pos s0 ++ m0 ++ splicedPre T e0 (rest ++ [(s, e, m)]) = _
    rw [ih]
    simp [splicedPre, endPos, List.append_assoc]

theorem endPos_append_single :
    ∀ (tri : List (Nat × Nat × List Char)) (pos s e : Nat) (m : List Char),
      endPos pos (tri ++ [(s, e, m)]) = e := by
  intro tri
  induction tri with
  | nil => intro pos s e m; rfl
  | cons trip rest ih =>
    obtain ⟨s0, e0, m0⟩ := trip
    intro pos s e m
    rw [List.cons_append]
    show endPos e0 (rest ++ [(s, e, m)]) = e
    exact ih e0 s e m

theorem endPos_le :
    ∀ (tri : List (Nat × Nat × List Char)) (pos q : Nat),
      pos ≤ q → (∀ p ∈ tri, p.2.1 ≤ q) → endPos pos tri ≤ q := by
  intro tri
  induction tri with
  | nil => intro pos q h _; exact h
  | cons trip rest ih =>
    obtain ⟨s, e, m⟩ := trip
    intro pos q _ hall
    exact ih e q (hall (s, e, m) (List.mem_cons_self _ _))
      (fun p hp => hall p (List.mem_cons_of_mem _ hp))

theorem slice_append_drop (T : List Char) {a b : Nat} (hab : a ≤ b) :
    slice T a b ++ T.drop b = T.drop a := by
  rw [slice_eq_drop_take]
  have h2 : (T.drop a).drop (b - a) = T.drop b := by
    rw [List.drop_drop]
    congr 1
    omega
  rw [← h2, List.take_append_drop]

theorem decrypt_append_single (t : List Char) (init : List MaskRecord)
    (r : MaskRecord) :
    decrypt_numerical_values t (init ++ [r]) =
      decrypt_numerical_values (replaceAll t r.masked r.original) init := by
  simp [decrypt_numerical_values, List.reverse_append]

theorem noStart_in_splicedPre {ph : List Char} (hlen10 : ph.length = 10)
    (hph0 : ph.get? 0 = some 'N')
    (hphN : ∀ j c, ph.get? (j + 1) = some c → c ≠ 'N') :
    ∀ (tri : List (Nat × Nat × List Char)) (T : List Char) (pos : Nat)
      (sfx : List Char),
      occurs ph T = false →
      (∀ p ∈ tri, ∃ c, p.2.2 = numPlaceholder c ∧ c < 1000000 ∧
        numPlaceholder c ≠ ph) →
      ∀ q, q < (splicedPre T pos tri).length →
        ¬ ph.isPrefixOf ((splicedPre T pos tri ++ sfx).drop q) = true := by
  intro tri
  induction tri with
  | nil =>
    intro T pos sfx _ _ q hq
    simp [splicedPre] at hq
  | cons trip rest ih =>
    obtain ⟨s, e, m⟩ := trip
    intro T pos sfx hocc htri q hq
    obtain ⟨c, hm, hc, hcne⟩ := htri (s, e, m) (List.mem_cons_self _ _)
    have hm2 : m = numPlaceholder c := hm
    have hmlen : m.length = 10 := by rw [hm2]; exact numPlaceholder_length hc
    have hq2 : q < (slice T pos s).length + m.length +
        (splicedPre T e rest).length := by
      have : (splicedPre T pos ((s, e, m) :: rest)).length =
          (slice T pos s).length + m.length + (splicedPre T e rest).length := by
        show (slice T pos s ++ m ++ splicedPre T e rest).length = _
        simp [List.length_append]
        omega
      omega
    have hshape : splicedPre T pos ((s, e, m) :: rest) ++ sfx =
        slice T pos s ++ (m ++ (splicedPre T e rest ++ sfx)) := by
      show slice T pos s ++ m ++ splicedPre T e rest ++ sfx = _
      simp [List.append_assoc]
    rw [hshape]
    by_cases h1 : q < (slice T pos s).length
    · apply noStart_crossing (occurs_false_within hocc (slice_infix_whole T pos s))
        ?_ hphN h1
      rw [List.get?_eq_getElem?, List.getElem?_append_left (by omega),
        ← List.get?_eq_getElem?, hm2]
      exact numPlaceholder_get_zero c
    · push_neg at h1
      have hq3 : q = (slice T pos s).length + (q - (slice T pos s).length) := by
        omega
      rw [hq3, List.drop_append]
      by_cases h2 : q - (slice T pos s).length < m.length
      · apply noStart_in_other_placeholder (by omega) ?_ ?_ hph0 h2
        · intro hphm
          exact hcne (by rw [← hm2, ← hphm])
        · intro j ch hch
          apply numPlaceholder_tail_ne_N c j ch
          rw [← hm2]
          exact hch
      · push_neg at h2
        have hq4 : q - (slice T pos s).length =
            m.length + (q - (slice T pos s).length - m.length) := by omega
        rw [hq4, List.drop_append]
        exact ih T e sfx hocc
          (fun p hp => htri p (List.mem_cons_of_mem _ hp))
          (q - (slice T pos s).length - m.length) (by omega)

theorem replaceAll_single_occurrence :
    ∀ (a ph b o : List Char), ph ≠ [] →
      (∀ q, q < a.length → ¬ ph.isPrefixOf ((a ++ ph ++ b).drop q) = true) →
      occurs ph b = false →
      replaceAll (a ++ ph ++ b) ph o = a ++ o ++ b := by
  intro a
  induction a with
  | nil =>
    intro ph b o hne _ hb
    show replaceRun ph o 0 ([] ++ ph ++ b) = [] ++ o ++ b
    rw [List.nil_append, List.nil_append, replaceRun_self_append ph o b hne,
      replaceRun_zero_of_not_occurs b ph o hb]
  | cons x a2 ih =>
    intro ph b o hne hns hb
    have h0 := hns 0 (by simp)
    show replaceRun ph o 0 (x :: (a2 ++ ph ++ b)) = x :: (a2 ++ o ++ b)
    simp only [replaceRun]
    rw [if_neg (fun hcc => h0 hcc.1)]
    exact congrArg (List.cons x)
      (ih ph b o hne
        (fun q hq hpre => hns (q + 1) (by simp only [List.length_cons]; omega) hpre)
        hb)

theorem decrypt_spliced :
    ∀ (rl : List MaskRecord) (T : List Char) (pos cstart : Nat),
      (∀ r ∈ rl, r.original = slice T r.start r.stop ∧ pos ≤ r.start ∧
        r.start ≤ r.stop ∧ r.stop ≤ T.length) →
      List.Pairwise (fun a b : MaskRecord => a.stop ≤ b.start) rl →
      (∀ (i : Nat) (hi : i < rl.length), rl[i].masked = numPlaceholder (cstart + i)) →
      cstart + rl.length ≤ 1000000 →
      (∀ k, cstart ≤ k → k < cstart + rl.length →
        occurs (numPlaceholder k) T = false) →
      decrypt_numerical_values (splicedFrom T pos (rl.map tripleOf)) rl =
        T.drop pos := by
  intro rl
  induction rl using List.reverseRecOn with
  | nil =>
    intro T pos cstart _ _ _ _ _
    simp [decrypt_numerical_values, splicedFrom]
  | append_singleton init r ih =>
    intro T pos cstart hb hsort hmask hlim hocc
    have hrmem : r ∈ init ++ [r] :=
      List.mem_append_right _ (List.mem_cons_self _ _)
    have hbr := hb r hrmem
    have hpa := List.pairwise_append.mp hsort
    have hcross : ∀ r2 ∈ init, r2.stop ≤ r.start :=
      fun r2 h2 => hpa.2.2 r2 h2 r (List.mem_cons_self _ _)
    have hlen : (init ++ [r]).length = init.length + 1 := by simp
    have hmr : r.masked = numPlaceholder (cstart + init.length) := by
      have h1 := hmask init.length (by omega)
      rwa [List.getElem_concat_length _ _ _ rfl] at h1
    have hmaski : ∀ (i : Nat) (hi : i < init.length),
        init[i].masked = numPlaceholder (cstart + i) := by
      intro i hi
      have h1 := hmask i (by omega)
      rwa [List.getElem_append_left hi] at h1
    have hbi : ∀ r2 ∈ init, r2.original = slice T r2.start r2.stop ∧
        pos ≤ r2.start ∧ r2.start ≤ r2.stop ∧ r2.stop ≤ T.length :=
      fun r2 h2 => hb r2 (List.mem_append_left _ h2)
    have hocci : ∀ k, cstart ≤ k → k < cstart + init.length →
        occurs (numPlaceholder k) T = false :=
      fun k h1 h2 => hocc k h1 (by omega)
    have hck : cstart + init.length < 1000000 := by omega
    have hlen10 : r.masked.length = 10 := by
      rw [hmr]; exact numPlaceholder_length hck
    have hph0 : r.masked.get? 0 = some 'N' := by
      rw [hmr]; exact numPlaceholder_get_zero _
    have hphN : ∀ j c, r.masked.get? (j + 1) = some c → c ≠ 'N' := by
      intro j c h
      exact numPlaceholder_tail_ne_N (cstart + init.length) j c (by rw [← hmr]; exact h)
    have hoccT : occurs r.masked T = false := by
      rw [hmr]; exact hocc _ (by omega) (by omega)
    have htri : (init ++ [r]).map tripleOf =
        init.map tripleOf ++ [(r.start, r.stop, r.masked)] := by
      simp [tripleOf]
    have hEi : endPos pos (init.map tripleOf) ≤ r.start := by
      apply endPos_le _ _ _ hbr.2.1
      intro p hp
      obtain ⟨r2, h2, rfl⟩ := List.mem_map.mp hp
      exact hcross r2 h2
    have htriI : ∀ p ∈ init.map tripleOf, ∃ c, p.2.2 = numPlaceholder c ∧
        c < 1000000 ∧ numPlaceholder c ≠ r.masked := by
      intro p hp
      obtain ⟨r2, h2, rfl⟩ := List.mem_map.mp hp
      obtain ⟨i, hi, hget⟩ := List.mem_iff_getElem.mp h2
      refine ⟨cstart + i, ?_, by omega, ?_⟩
      · show r2.masked = _
        rw [← hget]
        exact hmaski i hi
      · rw [hmr]
        intro hEq
        have := numPlaceholder_injective hEq
        omega
    rw [htri, splicedFrom_eq_pre, splicedPre_append_single, endPos_append_single,
      decrypt_append_single]
    have hRep : replaceAll (splicedPre T pos (init.map tripleOf) ++
          slice T (endPos pos (init.map tripleOf)) r.start ++ r.masked ++
          T.drop r.stop) r.masked r.original =
        (splicedPre T pos (init.map tripleOf) ++
          slice T (endPos pos (init.map tripleOf)) r.start) ++ r.original ++
          T.drop r.stop := by
      apply replaceAll_single_occurrence
        (splicedPre T pos (init.map tripleOf) ++
          slice T (endPos pos (init.map tripleOf)) r.start)
        r.masked (T.drop r.stop) r.original
        (by rw [hmr]; exact numPlaceholder_ne_nil _)
      · intro q hq hpre
        rw [List.length_append] at hq
        have hassoc : (splicedPre T pos (init.map tripleOf) ++
              slice T (endPos pos (init.map tripleOf)) r.start) ++ r.masked ++
              T.drop r.stop =
            splicedPre T pos (init.map tripleOf) ++
              (slice T (endPos pos (init.map tripleOf)) r.start ++
                (r.masked ++ T.drop r.stop)) := by
          simp [List.append_assoc]
        rw [hassoc] at hpre
        by_cases h1 : q < (splicedPre T pos (init.map tripleOf)).length
        · exact noStart_in_splicedPre hlen10 hph0 hphN (init.map tripleOf) T pos
            (slice T (endPos pos (init.map tripleOf)) r.start ++
              (r.masked ++ T.drop r.stop)) hoccT htriI q h1 hpre
        · push_neg at h1
          have hq5 : q = (splicedPre T pos (init.map tripleOf)).length +
              (q - (splicedPre T pos (init.map tripleOf)).length) := by omega
          rw [hq5, List.drop_append] at hpre
          have hsfx : (r.masked ++ T.drop r.stop).get? 0 = some 'N' := by
            rw [List.get?_eq_getElem?,
              List.getElem?_append_left (by rw [hlen10]; omega),
              ← List.get?_eq_getElem?]
            exact hph0
          exact noStart_crossing
            (occurs_false_within hoccT (slice_infix_whole _ _ _)) hsfx hphN
            (by omega) hpre
      · rw [hmr]
        exact occurs_false_within (hocc _ (by omega) (by omega))
          (drop_infix_whole T r.stop)
    rw [hRep, hbr.1]
    have hasm : (splicedPre T pos (init.map tripleOf) ++
          slice T (endPos pos (init.map tripleOf)) r.start) ++
          slice T r.start r.stop ++ T.drop r.stop =
        splicedPre T pos (init.map tripleOf) ++
          T.drop (endPos pos (init.map tripleOf)) := by
      rw [List.append_assoc (splicedPre T pos (init.map tripleOf) ++
          slice T (endPos pos (init.map tripleOf)) r.start),
        slice_append_drop T hbr.2.2.1,
        List.append_assoc (splicedPre T pos (init.map tripleOf)),
        slice_append_drop T hEi]
    rw [hasm, ← splicedFrom_eq_pre]
    exact ih T pos cstart hbi hpa.1 hmaski (by omega) hocci

/-! ## C1: the masking round trip -/

/-- C1 counterexample: the round trip `decrypt(mask(T)) = T` fails as stated for
all `T`.  On the input `"NUM_000000 5"` the only numeric match is `"5"`, which is
masked as `NUM_000000`; the pre-existing literal `NUM_000000` in the text collides
with the issued placeholder, and decryption replaces both occurrences, returning
`"5 5"` instead of the original text. -/
theorem C1_counterexample :
    decrypt_numerical_values (mask_numerical_values 0 (str "NUM_000000 5")).1
      (mask_numerical_values 0 (str "NUM_000000 5")).2.1 ≠ str "NUM_000000 5" := by
  decide

/-- C1 amended: the round trip holds for every text `T` that does not already
contain any placeholder the mask call will issue (none of `NUM_<counter>` …
`NUM_<counter+matches-1>` occurs in `T`), provided the issued counters stay below
the six-digit capacity `10^6` (so placeholders have a fixed width of 10
characters).  Then decrypting the masked text with the mapping produced by the
same call restores `T` exactly. -/
theorem C1_amended (counter : Nat) (T : List Char)
    (hlim : counter + (findFrom none 0 T).length ≤ 1000000)
    (hocc : ∀ k, counter ≤ k → k < counter + (findFrom none 0 T).length →
      occurs (numPlaceholder k) T = false) :
    decrypt_numerical_values (mask_numerical_values counter T).1
      (mask_numerical_values counter T).2.1 = T := by
  have hlenr : (mask_numerical_values counter T).2.1.length =
      (findFrom none 0 T).length := by
    rw [mask_records_eq]
    simp
  have h := decrypt_spliced (mask_numerical_values counter T).2.1 T 0 counter
    (fun r hr => by
      have hf := mask_record_facts hr
      exact ⟨hf.1, Nat.zero_le _, hf.2.1, hf.2.2.1⟩)
    (mask_records_sorted counter T)
    (fun i hi => by
      show ((findFrom none 0 T).enum.map (fun p =>
        { original := slice T p.2.1 (p.2.1 + p.2.2)
          masked := numPlaceholder (counter + p.1)
          start := p.2.1
          stop := p.2.1 + p.2.2 : MaskRecord }))[i].masked = _
      rw [List.getElem_map, List.getElem_enum])
    (by omega)
    (fun k h1 h2 => hocc k h1 (by omega))
  rw [mask_spliced counter T, h, List.drop_zero]

/-- C1 witness: the amended round trip at the concrete text `"$5 and 12%"`
(two matches, counters 0 and 1, no placeholder collision). -/
theorem C1_amended_witness :
    decrypt_numerical_values (mask_numerical_values 0 (str "$5 and 12%")).1
      (mask_numerical_values 0 (str "$5 and 12%")).2.1 = str "$5 and 12%" :=
  C1_amended 0 (str "$5 and 12%") (by decide)
    (by
      intro k _ hk
      have hlen : (findFrom none 0 (str "$5 and 12%")).length = 2 := by decide
      rw [hlen] at hk
      interval_cases k <;> decide)

/-! ## Character content of a numeric match (towards C7) -/

theorem tokenChar_of_digit {c : Char} (h : c.isDigit = true) : tokenChar c = true := by
  simp [tokenChar, h]

theorem get?_append_add (l1 l2 : List Char) (n : Nat) :
    (l1 ++ l2).get? (l1.length + n) = l2.get? n := by
  rw [List.get?_eq_getElem?, List.get?_eq_getElem?,
    List.getElem?_append_right (Nat.le_add_right _ _), Nat.add_sub_cancel_left]

theorem digitRun_get : ∀ (l : List Char) (j : Nat), j < digitRun l →
    ∃ c, l.get? j = some c ∧ c.isDigit = true := by
  intro l
  induction l with
  | nil => intro j hj; simp [digitRun] at hj
  | cons c rest ih =>
    intro j hj
    simp only [digitRun] at hj
    by_cases hc : c.isDigit
    · rw [if_pos hc] at hj
      match j with
      | 0 => exact ⟨c, rfl, hc⟩
      | j + 1 => exact ih j (by omega)
    · rw [if_neg hc] at hj
      omega

theorem commaReps_get : ∀ (N : Nat) (l : List Char), l.length ≤ N →
    ∀ j, j < 4 * commaReps l →
      ∃ c, l.get? j = some c ∧ (c = ',' ∨ c.isDigit = true) := by
  intro N
  induction N with
  | zero =>
    intro l hl j hj
    match l, hl with
    | [], _ => rw [show commaReps [] = 0 from rfl] at hj; omega
    | c :: r, hl => simp at hl
  | succ N ih =>
    intro l hl j hj
    match l with
    | [] => rw [show commaReps [] = 0 from rfl] at hj; omega
    | [c] => rw [show commaReps [c] = 0 from rfl] at hj; omega
    | [c, a] => rw [show commaReps [c, a] = 0 from rfl] at hj; omega
    | [c, a, b] => rw [show commaReps [c, a, b] = 0 from rfl] at hj; omega
    | c :: a :: b :: d :: rest =>
      simp only [commaReps] at hj
      by_cases hcond : c = ',' ∧ a.isDigit ∧ b.isDigit ∧ d.isDigit
      · rw [if_pos hcond] at hj
        match j with
        | 0 => exact ⟨c, rfl, Or.inl hcond.1⟩
        | 1 => exact ⟨a, rfl, Or.inr hcond.2.1⟩
        | 2 => exact ⟨b, rfl, Or.inr hcond.2.2.1⟩
        | 3 => exact ⟨d, rfl, Or.inr hcond.2.2.2⟩
        | j + 4 =>
          exact ih rest (by simp at hl ⊢; omega) j (by omega)
      · rw [if_neg hcond] at hj
        omega

theorem digits_commas_get (rest : List Char) (K R : Nat)
    (hK : K ≤ digitRun rest) (hR : R ≤ commaReps (rest.drop K)) (j : Nat)
    (hj : j < K + 4 * R) : ∃ ch, rest.get? j = some ch ∧ tokenChar ch = true := by
  by_cases h1 : j < K
  · obtain ⟨ch, hch, hd⟩ := digitRun_get rest j (by omega)
    exact ⟨ch, hch, tokenChar_of_digit hd⟩
  · push_neg at h1
    obtain ⟨ch, hch, hd⟩ := commaReps_get (rest.drop K).length (rest.drop K) le_rfl
      (j - K) (by omega)
    rw [get?_drop_add] at hch
    have he : K + (j - K) = j := by omega
    rw [he] at hch
    rcases hd with rfl | hd
    · exact ⟨',', hch, by decide⟩
    · exact ⟨ch, hch, tokenChar_of_digit hd⟩

theorem dotRun_get (e : Char) (r2 : List Char) (he : e = '.') (i : Nat)
    (hi : i < 1 + digitRun r2) :
    ∃ ch, (e :: r2).get? i = some ch ∧ tokenChar ch = true := by
  match i with
  | 0 => exact ⟨e, rfl, by rw [he]; decide⟩
  | i + 1 =>
    obtain ⟨ch, hch, hd⟩ := digitRun_get r2 i (by omega)
    exact ⟨ch, hch, tokenChar_of_digit hd⟩

theorem alt2Tail_get : ∀ {l : List Char} {t : Nat}, alt2Tail l = some t →
    ∀ i, i < t → ∃ ch, l.get? i = some ch ∧ tokenChar ch = true := by
  intro l t h i hi
  match l with
  | [] =>
    simp only [alt2Tail, Option.some.injEq] at h
    omega
  | c :: r2 =>
    simp only [alt2Tail] at h
    split at h
    · rename_i hdot
      split at h
      · simp only [Option.some.injEq] at h
        subst h
        exact dotRun_get c r2 hdot i hi
      · simp only [Option.some.injEq] at h
        omega
    · split at h
      · exact absurd h (by simp)
      · simp only [Option.some.injEq] at h
        omega

theorem alt2Reps_decomp :
    ∀ (r : Nat) (l : List Char) (t : Nat), alt2Reps l r = some t →
      ∃ r2 t2, r2 ≤ r ∧ t = 4 * r2 + t2 ∧ alt2Tail (l.drop (4 * r2)) = some t2 := by
  intro r
  induction r with
  | zero =>
    intro l t h
    simp only [alt2Reps] at h
    cases hh : alt2Tail l with
    | none => rw [hh] at h; exact absurd h (by simp)
    | some t2 =>
      rw [hh] at h
      simp only [Option.some.injEq] at h
      subst h
      exact ⟨0, t2, le_rfl, by omega, by simpa using hh⟩
  | succ r ih =>
    intro l t h
    simp only [alt2Reps] at h
    cases hh : alt2Tail (l.drop (4 * (r + 1))) with
    | none =>
      rw [hh] at h
      obtain ⟨r2, t2, h1, h2, h3⟩ := ih l t h
      exact ⟨r2, t2, by omega, h2, h3⟩
    | some t2 =>
      rw [hh] at h
      simp only [Option.some.injEq] at h
      exact ⟨r + 1, t2, le_rfl, h.symm, hh⟩

theorem matchAlt1_get : ∀ {l : List Char} {n : Nat}, matchAlt1 l = some n →
    ∀ j, j < n → ∃ ch, l.get? j = some ch ∧ tokenChar ch = true := by
  intro l n h j hj
  match l with
  | [] => exact absurd h (by simp [matchAlt1])
  | c :: rest =>
    simp only [matchAlt1] at h
    split at h
    · rename_i hdollar
      split at h
      · exact absurd h (by simp)
      · simp only [Option.some.injEq] at h
        subst h
        match j with
        | 0 => exact ⟨c, rfl, by rw [hdollar]; decide⟩
        | j + 1 =>
          show ∃ ch, rest.get? j = some ch ∧ tokenChar ch = true
          by_cases h2 : j < min 3 (digitRun rest) +
              4 * commaReps (rest.drop (min 3 (digitRun rest)))
          · exact digits_commas_get rest _ _ (Nat.min_le_right _ _) le_rfl j h2
          · push_neg at h2
            split at hj
            · omega
            · rename_i x e r2 heq
              split at hj
              · rename_i hdot
                split at hj
                · omega
                · obtain ⟨ch, hch, htc⟩ := dotRun_get e r2 hdot
                    (j - (min 3 (digitRun rest) +
                      4 * commaReps (rest.drop (min 3 (digitRun rest)))))
                    (by omega)
                  rw [← heq, get?_drop_add, get?_drop_add] at hch
                  have harith : min 3 (digitRun rest) +
                      (4 * commaReps (rest.drop (min 3 (digitRun rest))) +
                        (j - (min 3 (digitRun rest) +
                          4 * commaReps (rest.drop (min 3 (digitRun rest)))))) = j := by
                    omega
                  rw [harith] at hch
                  exact ⟨ch, hch, htc⟩
              · omega
    · exact absurd h (by simp)

theorem matchAlt2_get : ∀ {prev : Option Char} {l : List Char} {n : Nat},
    matchAlt2 prev l = some n →
    ∀ j, j < n → ∃ ch, l.get? j = some ch ∧ tokenChar ch = true := by
  intro prev l n h j hj
  simp only [matchAlt2] at h
  split at h
  · split at h
    · cases ht : alt2Reps (l.drop (digitRun l)) (commaReps (l.drop (digitRun l))) with
      | none => rw [ht] at h; exact absurd h (by simp)
      | some t =>
        rw [ht] at h
        simp only [Option.some.injEq] at h
        subst h
        obtain ⟨r2, t2, hr2, ht2eq, htail⟩ := alt2Reps_decomp _ _ _ ht
        by_cases h1 : j < digitRun l + 4 * r2
        · exact digits_commas_get l _ _ le_rfl hr2 j h1
        · push_neg at h1
          obtain ⟨ch, hch, htc⟩ := alt2Tail_get htail
            (j - (digitRun l + 4 * r2)) (by omega)
          rw [get?_drop_add, get?_drop_add] at hch
          have harith : digitRun l + (4 * r2 + (j - (digitRun l + 4 * r2))) = j := by
            omega
          rw [harith] at hch
          exact ⟨ch, hch, htc⟩
    · exact absurd h (by simp)
  · exact absurd h (by simp)

theorem matchAlt3_get : ∀ {prev : Option Char} {l : List Char} {n : Nat},
    matchAlt3 prev l = some n →
    ∀ j, j < n → ∃ ch, l.get? j = some ch ∧ tokenChar ch = true := by
  intro prev l n h j hj
  simp only [matchAlt3] at h
  split at h
  · split at h
    · exact absurd h (by simp)
    · split at h
      · exact absurd h (by simp)
      · rename_i e r2 heq
        split at h
        · rename_i hpct
          simp only [Option.some.injEq] at h
          subst h
          by_cases h1 : j < digitRun l
          · obtain ⟨ch, hch, hd⟩ := digitRun_get l j h1
            exact ⟨ch, hch, tokenChar_of_digit hd⟩
          · push_neg at h1
            have hje : j = digitRun l := by omega
            have hch : l.get? j = some e := by
              rw [hje, ← Nat.add_zero (digitRun l), ← get?_drop_add, heq]
              rfl
            exact ⟨e, hch, by rw [hpct]; decide⟩
        · exact absurd h (by simp)
  · exact absurd h (by simp)

theorem matchAt_get : ∀ {prev : Option Char} {l : List Char} {n : Nat},
    matchAt prev l = some n →
    ∀ j, j < n → ∃ ch, l.get? j = some ch ∧ tokenChar ch = true := by
  intro prev l n h
  simp only [matchAt] at h
  cases h1 : matchAlt1 l with
  | some m =>
    rw [h1] at h
    simp only [Option.some.injEq] at h
    exact h ▸ matchAlt1_get h1
  | none =>
    rw [h1] at h
    cases h2 : matchAlt2 prev l with
    | some m =>
      rw [h2] at h
      simp only [Option.some.injEq] at h
      exact h ▸ matchAlt2_get h2
    | none =>
      rw [h2] at h
      exact matchAlt3_get h

theorem matchAt_start : ∀ {prev : Option Char} {l : List Char} {n : Nat},
    matchAt prev l = some n →
    ∃ c, l.get? 0 = some c ∧
      (c = '$' ∨ (c.isDigit = true ∧ boundaryBefore prev = true)) := by
  intro prev l n h
  simp only [matchAt] at h
  cases h1 : matchAlt1 l with
  | some m =>
    match l with
    | [] => exact absurd h1 (by simp [matchAlt1])
    | c :: rest =>
      simp only [matchAlt1] at h1
      split at h1
      · rename_i hdollar
        exact ⟨c, rfl, Or.inl hdollar⟩
      · exact absurd h1 (by simp)
  | none =>
    rw [h1] at h
    cases h2 : matchAlt2 prev l with
    | some m =>
      simp only [matchAlt2] at h2
      split at h2
      · rename_i hb
        split at h2
        · rename_i hm
          obtain ⟨c, hc, hd⟩ := digitRun_get l 0 (by omega)
          exact ⟨c, hc, Or.inr ⟨hd, by simpa using hb⟩⟩
        · exact absurd h2 (by simp)
      · exact absurd h2 (by simp)
    | none =>
      rw [h2] at h
      simp only [matchAlt3] at h
      split at h
      · rename_i hb
        split at h
        · exact absurd h (by simp)
        · rename_i hm
          obtain ⟨c, hc, hd⟩ := digitRun_get l 0 (by omega)
          exact ⟨c, hc, Or.inr ⟨hd, by simpa using hb⟩⟩
      · exact absurd h (by simp)

theorem isWordChar_of_digit {c : Char} (h : c.isDigit = true) : isWordChar c = true := by
  simp [isWordChar, h]

theorem numPlaceholder_get_one (k : Nat) : (numPlaceholder k).get? 1 = some 'U' := rfl

theorem numPlaceholder_get_two (k : Nat) : (numPlaceholder k).get? 2 = some 'M' := rfl

theorem numPlaceholder_get_three (k : Nat) :
    (numPlaceholder k).get? 3 = some '_' := rfl

theorem numPlaceholder_get_add4 (k j : Nat) :
    (numPlaceholder k).get? (j + 4) = (pad6 k).get? j := rfl

theorem numPlaceholder_len_eq (k : Nat) :
    (numPlaceholder k).length = 4 + (pad6 k).length := by
  simp only [numPlaceholder, List.length_cons]
  omega

theorem numPlaceholder_digit (k j : Nat) (hj : j < (pad6 k).length) :
    ∃ c, (numPlaceholder k).get? (j + 4) = some c ∧ c.isDigit = true := by
  rw [numPlaceholder_get_add4]
  exact ⟨_, List.get?_eq_get hj, pad6_all_digit _ (List.get_mem _ _ _)⟩

theorem get?_of_split {S u m v : List Char} (hS : S = u ++ m ++ v) (off : Nat)
    (hoff : off < m.length) : S.get? (u.length + off) = m.get? off := by
  subst hS
  rw [List.append_assoc, get?_append_add, List.get?_append hoff]

theorem slice_infix_drop (T : List Char) {pos a b : Nat} (h1 : pos ≤ a)
    (h2 : a ≤ b) : slice T a b <:+: T.drop pos :=
  ⟨slice T pos a, T.drop b, by
    rw [List.append_assoc, slice_append_drop T h2, slice_append_drop T h1]⟩

theorem slice_infix_slice (T : List Char) {pos s a b : Nat} (h1 : pos ≤ a)
    (h2 : a ≤ b) (h3 : b ≤ s) : slice T a b <:+: slice T pos s := by
  have he : slice T a b = slice (T.take s) a b := by
    show (T.take b).drop a = ((T.take s).take b).drop a
    rw [List.take_take, Nat.min_eq_left h3]
  rw [he]
  exact slice_infix_drop (T.take s) h1 h2

theorem slice_at_append (u ph v : List Char) :
    slice (u ++ ph ++ v) u.length (u.length + ph.length) = ph := by
  show (((u ++ ph) ++ v).take (u.length + ph.length)).drop u.length = ph
  rw [← List.length_append u ph, List.take_left, List.drop_left]

theorem gap_infix_spliced :
    ∀ (tri : List (Nat × Nat × List Char)) (T : List Char) (pos a b : Nat),
      pos ≤ a → a ≤ b →
      (∀ p ∈ tri, p.2.1 ≤ a ∨ b ≤ p.1) →
      slice T a b <:+: splicedFrom T pos tri := by
  intro tri
  induction tri with
  | nil =>
    intro T pos a b h1 h2 _
    exact slice_infix_drop T h1 h2
  | cons trip rest ih =>
    obtain ⟨s, e, m⟩ := trip
    intro T pos a b h1 h2 hall
    rcases hall (s, e, m) (List.mem_cons_self _ _) with he | hbs
    · have hinf := ih T e a b he h2 (fun p hp => hall p (List.mem_cons_of_mem _ hp))
      have hsfx : splicedFrom T e rest <:+: splicedFrom T pos ((s, e, m) :: rest) :=
        ⟨slice T pos s ++ m, [], by simp [splicedFrom, List.append_assoc]⟩
      exact hinf.trans hsfx
    · have hinf := slice_infix_slice T h1 h2 hbs
      have hpre : slice T pos s <:+: splicedFrom T pos ((s, e, m) :: rest) :=
        ⟨[], m ++ splicedFrom T e rest, by simp [splicedFrom, List.append_assoc]⟩
      exact hinf.trans hpre

theorem match_disjoint_placeholder (u v : List Char) (k : Nat) :
    ∀ p ∈ findFrom none 0 (u ++ numPlaceholder k ++ v),
      p.1 + p.2 ≤ u.length ∨ u.length + (numPlaceholder k).length ≤ p.1 := by
  intro p hp
  have hspec := (findRun_spec (u ++ numPlaceholder k ++ v)
    (u ++ numPlaceholder k ++ v) 0 0 none rfl rfl).1 p hp
  have hP := numPlaceholder_len_eq k
  by_contra hcon
  push_neg at hcon
  obtain ⟨hlt1, hlt2⟩ := hcon
  have hmatch := hspec.2.2.2
  have hn := hspec.2.1
  by_cases hcase : p.1 ≤ u.length + 3
  · -- the match covers one of the four head characters N, U, M, _
    have hq : ∃ off, off ≤ 3 ∧ u.length + off < p.1 + p.2 ∧
        p.1 ≤ u.length + off := by
      by_cases hsl : p.1 ≤ u.length
      · exact ⟨0, by omega, by omega, by omega⟩
      · exact ⟨p.1 - u.length, by omega, by omega, by omega⟩
    obtain ⟨off, ho3, hltq, hgeq⟩ := hq
    obtain ⟨ch, hch, htc⟩ := matchAt_get hmatch (u.length + off - p.1) (by omega)
    rw [get?_drop_add] at hch
    rw [show p.1 + (u.length + off - p.1) = u.length + off by omega] at hch
    rw [get?_of_split rfl off (by omega)] at hch
    interval_cases off
    · rw [numPlaceholder_get_zero] at hch
      injection hch with hch2
      rw [← hch2] at htc
      exact absurd htc (by decide)
    · rw [numPlaceholder_get_one] at hch
      injection hch with hch2
      rw [← hch2] at htc
      exact absurd htc (by decide)
    · rw [numPlaceholder_get_two] at hch
      injection hch with hch2
      rw [← hch2] at htc
      exact absurd htc (by decide)
    · rw [numPlaceholder_get_three] at hch
      injection hch with hch2
      rw [← hch2] at htc
      exact absurd htc (by decide)
  · -- the match starts inside the digit zone of the placeholder
    push_neg at hcase
    obtain ⟨c0, hc0, hd0⟩ := matchAt_start hmatch
    rw [get?_drop_add, Nat.add_zero] at hc0
    obtain ⟨cd, hcd, hcddig⟩ := numPlaceholder_digit k (p.1 - u.length - 4) (by omega)
    rw [show p.1 - u.length - 4 + 4 = p.1 - u.length by omega] at hcd
    have hph : (u ++ numPlaceholder k ++ v).get? p.1 =
        (numPlaceholder k).get? (p.1 - u.length) := by
      have h5 := get?_of_split (rfl :
        u ++ numPlaceholder k ++ v = u ++ numPlaceholder k ++ v)
        (p.1 - u.length) (by omega)
      rwa [show u.length + (p.1 - u.length) = p.1 by omega] at h5
    rw [hph, hcd] at hc0
    injection hc0 with hcc
    have hp0 : p.1 ≠ 0 := by omega
    have hprev : prevCharOf (u ++ numPlaceholder k ++ v) p.1 =
        (u ++ numPlaceholder k ++ v).get? (p.1 - 1) := by
      simp only [prevCharOf, if_neg hp0]
    have hw : ∃ w, (u ++ numPlaceholder k ++ v).get? (p.1 - 1) = some w ∧
        isWordChar w = true := by
      by_cases hc3 : p.1 - 1 = u.length + 3
      · refine ⟨'_', ?_, by decide⟩
        rw [hc3, get?_of_split rfl 3 (by omega)]
        exact numPlaceholder_get_three k
      · obtain ⟨w, hw1, hw2⟩ := numPlaceholder_digit k (p.1 - 1 - u.length - 4)
          (by omega)
        rw [show p.1 - 1 - u.length - 4 + 4 = p.1 - 1 - u.length by omega] at hw1
        have hb2 := get?_of_split (rfl :
          u ++ numPlaceholder k ++ v = u ++ numPlaceholder k ++ v)
          (p.1 - 1 - u.length) (by omega)
        rw [show u.length + (p.1 - 1 - u.length) = p.1 - 1 by omega] at hb2
        exact ⟨w, by rw [hb2]; exact hw1, isWordChar_of_digit hw2⟩
    rcases hd0 with hdollar | hbdy
    · rw [hcc, hdollar] at hcddig
      exact absurd hcddig (by decide)
    · obtain ⟨w, hw1, hw2⟩ := hw
      have hb := hbdy.2
      rw [hprev, hw1] at hb
      simp [boundaryBefore, hw2] at hb

/-! ## C7: placeholders are never re-matched -/

/-- C7: no issued placeholder can be re-matched.  For every occurrence of a
placeholder `NUM_<digits>` in the masked text (given by any decomposition
`masked = u ++ NUM_<k> ++ v`), every match found by a second
`mask_numerical_values` pass over the masked text has a span disjoint from the
placeholder's span `[|u|, |u| + 10)`, and consequently the placeholder survives
verbatim in the re-masked text. -/
theorem C7_no_rematch (counter counter2 : Nat) (T u v : List Char) (k : Nat)
    (hS : (mask_numerical_values counter T).1 = u ++ numPlaceholder k ++ v) :
    (∀ p ∈ findFrom none 0 (mask_numerical_values counter T).1,
        p.1 + p.2 ≤ u.length ∨ u.length + (numPlaceholder k).length ≤ p.1)
    ∧ occurs (numPlaceholder k)
        (mask_numerical_values counter2 (mask_numerical_values counter T).1).1 =
      true := by
  constructor
  · rw [hS]
    exact match_disjoint_placeholder u v k
  · have hdisj : ∀ p ∈ (mask_numerical_values counter2
        (mask_numerical_values counter T).1).2.1.map tripleOf,
        p.2.1 ≤ u.length ∨ u.length + (numPlaceholder k).length ≤ p.1 := by
      intro p hp
      obtain ⟨r, hr, rfl⟩ := List.mem_map.mp hp
      obtain ⟨i, q, _, hqm, rfl⟩ := mem_mask_records hr
      have h6 := match_disjoint_placeholder u v k q (by rw [← hS]; exact hqm)
      exact h6
    have hlenS : u.length + (numPlaceholder k).length ≤
        (mask_numerical_values counter T).1.length := by
      rw [hS]
      simp [List.length_append]
    have hgap := gap_infix_spliced
      ((mask_numerical_values counter2 (mask_numerical_values counter T).1).2.1.map
        tripleOf)
      (mask_numerical_values counter T).1 0 u.length
      (u.length + (numPlaceholder k).length)
      (Nat.zero_le _) (Nat.le_add_right _ _) hdisj
    have hslice : slice (mask_numerical_values counter T).1 u.length
        (u.length + (numPlaceholder k).length) = numPlaceholder k := by
      rw [hS]
      exact slice_at_append u (numPlaceholder k) v
    rw [hslice] at hgap
    obtain ⟨x, y, hxy⟩ := hgap
    apply occurs_iff.mpr
    exact ⟨x, y, by rw [mask_spliced counter2]; exact hxy.symm⟩

/-- C7 witness: the no-re-match statement at the concrete text `"$5"`, whose
masked form is exactly the placeholder `NUM_000000`. -/
theorem C7_no_rematch_witness :
    (∀ p ∈ findFrom none 0 (mask_numerical_values 0 (str "$5")).1,
        p.1 + p.2 ≤ 0 ∨ 0 + (numPlaceholder 0).length ≤ p.1)
    ∧ occurs (numPlaceholder 0)
        (mask_numerical_values 7 (mask_numerical_values 0 (str "$5")).1).1 =
      true :=
  C7_no_rematch 0 7 (str "$5") [] [] 0 (by decide)

/-! ## C10: long bare digit runs -/

theorem digitRun_all_append : ∀ (run w : List Char), (∀ c ∈ run, c.isDigit = true) →
    (∀ c, w.get? 0 = some c → c.isDigit = false) →
    digitRun (run ++ w) = run.length := by
  intro run
  induction run with
  | nil =>
    intro w _ hw
    match w with
    | [] => rfl
    | c :: rest => simp [digitRun, hw c rfl]
  | cons c rest ih =>
    intro w hrun hw
    simp only [List.cons_append, digitRun, List.length_cons]
    rw [if_pos (hrun c (List.mem_cons_self _ _))]
    show digitRun (rest ++ w) + 1 = rest.length + 1
    rw [ih w (fun c2 h2 => hrun c2 (List.mem_cons_of_mem _ h2)) hw]

theorem matchAt_none_of_long_run (prev : Option Char) (run w : List Char)
    (hrun : ∀ c ∈ run, c.isDigit = true) (hlen : 4 ≤ run.length)
    (hw : ∀ c, w.get? 0 = some c → c.isDigit = false ∧ c ≠ '%') :
    matchAt prev (run ++ w) = none := by
  have hdr : digitRun (run ++ w) = run.length :=
    digitRun_all_append run w hrun (fun c h => (hw c h).1)
  have h1 : matchAlt1 (run ++ w) = none := by
    match run, hlen with
    | [], hlen => simp at hlen
    | rc :: rest, _ =>
      show matchAlt1 (rc :: (rest ++ w)) = none
      simp only [matchAlt1]
      have hrc : ¬ rc = '$' := by
        intro hrc
        have hd := hrun rc (List.mem_cons_self _ _)
        rw [hrc] at hd
        exact absurd hd (by decide)
      rw [if_neg hrc]
  have h2 : matchAlt2 prev (run ++ w) = none := by
    simp only [matchAlt2, hdr]
    split
    · rw [if_neg (by omega : ¬(1 ≤ run.length ∧ run.length ≤ 3))]
    · rfl
  have h3 : matchAlt3 prev (run ++ w) = none := by
    simp only [matchAlt3, hdr]
    split
    · rw [List.drop_left]
      split
      · rfl
      · cases w with
        | nil => rfl
        | cons c rest =>
          show (if c = '%' then some (run.length + 1) else none) = none
          rw [if_neg (hw c rfl).2]
    · rfl
  simp only [matchAt, h1, h2, h3]

theorem run_disjoint_matches (u run w : List Char)
    (hrun : ∀ c ∈ run, c.isDigit = true) (hlen : 4 ≤ run.length)
    (hleft : ∀ c, u.get? (u.length - 1) = some c → tokenChar c = false)
    (hright : ∀ c, w.get? 0 = some c → c.isDigit = false ∧ c ≠ '%') :
    ∀ p ∈ findFrom none 0 (u ++ run ++ w),
      p.1 + p.2 ≤ u.length ∨ u.length + run.length ≤ p.1 := by
  intro p hp
  have hspec := (findRun_spec (u ++ run ++ w) (u ++ run ++ w) 0 0 none rfl rfl).1 p hp
  have hmatch := hspec.2.2.2
  have hn := hspec.2.1
  by_contra hcon
  push_neg at hcon
  obtain ⟨hlt1, hlt2⟩ := hcon
  by_cases hcase : p.1 < u.length
  · -- the match covers the character just before the run, which is not a
    -- pattern character
    obtain ⟨ch, hch, htc⟩ := matchAt_get hmatch (u.length - 1 - p.1) (by omega)
    rw [get?_drop_add] at hch
    rw [show p.1 + (u.length - 1 - p.1) = u.length - 1 by omega] at hch
    rw [List.get?_append (by simp; omega), List.get?_append (by omega)] at hch
    rw [hleft ch hch] at htc
    exact absurd htc (by simp)
  · push_neg at hcase
    by_cases heq : p.1 = u.length
    · -- a match starting exactly at the run start is impossible: the run is
      -- too long for the second alternative and not followed by a percent sign
      have hdropT : (u ++ run ++ w).drop u.length = run ++ w := by
        rw [List.append_assoc, List.drop_left]
      rw [heq, hdropT, matchAt_none_of_long_run _ run w hrun hlen hright] at hmatch
      exact absurd hmatch (by simp)
    · -- a match starting strictly inside the run: the previous character is a
      -- digit, so the required word boundary fails
      have hgt : u.length < p.1 := by omega
      obtain ⟨c0, hc0, hd0⟩ := matchAt_start hmatch
      rw [get?_drop_add, Nat.add_zero] at hc0
      have hidx0 : p.1 - u.length < run.length := by omega
      have hph0 : (u ++ run ++ w).get? p.1 = run.get? (p.1 - u.length) := by
        have h5 := get?_of_split (rfl : u ++ run ++ w = u ++ run ++ w)
          (p.1 - u.length) hidx0
        rwa [show u.length + (p.1 - u.length) = p.1 by omega] at h5
      have hc0dig : c0.isDigit = true := by
        rw [hph0, List.get?_eq_get hidx0] at hc0
        injection hc0 with hcc
        rw [← hcc]
        exact hrun _ (List.get_mem _ _ _)
      have hidx1 : p.1 - 1 - u.length < run.length := by omega
      have hph1 : (u ++ run ++ w).get? (p.1 - 1) = run.get? (p.1 - 1 - u.length) := by
        have h5 := get?_of_split (rfl : u ++ run ++ w = u ++ run ++ w)
          (p.1 - 1 - u.length) hidx1
        rwa [show u.length + (p.1 - 1 - u.length) = p.1 - 1 by omega] at h5
      have hprev : prevCharOf (u ++ run ++ w) p.1 =
          (u ++ run ++ w).get? (p.1 - 1) := by
        simp only [prevCharOf, if_neg (by omega : ¬ p.1 = 0)]
      rcases hd0 with hdollar | hbdy
      · rw [hdollar] at hc0dig
        exact absurd hc0dig (by decide)
      · have hb := hbdy.2
        rw [hprev, hph1, List.get?_eq_get hidx1] at hb
        have hwd : isWordChar (run.get ⟨p.1 - 1 - u.length, hidx1⟩) = true :=
          isWordChar_of_digit (hrun _ (List.get_mem _ _ _))
        rw [List.get_eq_getElem] at hwd
        simp [boundaryBefore, hwd] at hb

/-- C10 counterexample: as stated the claim is false.  In `"5.2345678"` the run
`"2345678"` has seven digits, is preceded by `'.'` (not `'$'`) and is not followed
by `'%'`, yet the whole text is one match of the first pass (the decimal branch),
so the run is replaced and does not pass through: the masked output is the bare
placeholder. -/
theorem C10_counterexample :
    occurs (str "2345678") (str "5.2345678") = true
    ∧ (mask_numerical_values 0 (str "5.2345678")).1 = str "NUM_000000"
    ∧ occurs (str "2345678") (mask_numerical_values 0 (str "5.2345678")).1 =
      false := by
  decide

/-- C10 amended: a maximal run of four or more digits passes through masking
verbatim provided the character immediately before it is none of the pattern's
token characters `$`, digit, `,`, `.`, `%` (the claim's "not preceded by `$`" is
too weak: a run preceded by `,` or `.` can be swallowed by the separator branches)
and the character after it is neither a digit nor `%`.  Then no match of
`mask_numerical_values` overlaps the run, and the run survives as a verbatim
infix of the masked text. -/
theorem C10_amended (counter : Nat) (T u run w : List Char)
    (hT : T = u ++ run ++ w)
    (hrun : ∀ c ∈ run, c.isDigit = true) (hlen : 4 ≤ run.length)
    (hleft : ∀ c, u.get? (u.length - 1) = some c → tokenChar c = false)
    (hright : ∀ c, w.get? 0 = some c → c.isDigit = false ∧ c ≠ '%') :
    (∀ p ∈ findFrom none 0 T,
      p.1 + p.2 ≤ u.length ∨ u.length + run.length ≤ p.1)
    ∧ occurs run (mask_numerical_values counter T).1 = true := by
  subst hT
  refine ⟨run_disjoint_matches u run w hrun hlen hleft hright, ?_⟩
  have hdisj : ∀ p ∈ (mask_numerical_values counter (u ++ run ++ w)).2.1.map tripleOf,
      p.2.1 ≤ u.length ∨ u.length + run.length ≤ p.1 := by
    intro p hp
    obtain ⟨r, hr, rfl⟩ := List.mem_map.mp hp
    obtain ⟨i, q, _, hqm, rfl⟩ := mem_mask_records hr
    exact run_disjoint_matches u run w hrun hlen hleft hright q hqm
  have hgap := gap_infix_spliced
    ((mask_numerical_values counter (u ++ run ++ w)).2.1.map tripleOf)
    (u ++ run ++ w) 0 u.length (u.length + run.length)
    (Nat.zero_le _) (Nat.le_add_right _ _) hdisj
  rw [slice_at_append u run w] at hgap
  obtain ⟨x, y, hxy⟩ := hgap
  apply occurs_iff.mpr
  exact ⟨x, y, by rw [mask_spliced counter]; exact hxy.symm⟩

/-- C10 witness: the amended statement for the text `"12345"`, a bare five-digit
run at the start of the text with nothing around it; it is matched by nothing and
survives masking verbatim. -/
theorem C10_amended_witness :
    (∀ p ∈ findFrom none 0 (str "12345"),
        p.1 + p.2 ≤ ([] : List Char).length ∨
          ([] : List Char).length + (str "12345").length ≤ p.1)
    ∧ occurs (str "12345") (mask_numerical_values 0 (str "12345")).1 = true :=
  C10_amended 0 (str "12345") [] (str "12345") [] (by decide) (by decide)
    (by decide) (fun c hc => Option.noConfusion hc)
    (fun c hc => Option.noConfusion hc)

/-! ## Commutation of global replacement under substring-level non-interaction
(C9) -/

theorem isPrefixOf_append_short {p X Y : List Char}
    (h : p.isPrefixOf (X ++ Y) = true) (hl : p.length ≤ X.length) :
    p.isPrefixOf X = true := by
  have htake := take_of_isPrefixOf h
  rw [List.take_append_of_le_length hl] at htake
  have hsplit := List.take_append_drop p.length X
  rw [htake] at hsplit
  exact List.isPrefixOf_iff_prefix.mpr ⟨X.drop p.length, hsplit⟩

theorem isPrefixOf_of_append_long {p X Y : List Char}
    (h : p.isPrefixOf (X ++ Y) = true) (hl : X.length ≤ p.length) :
    X.isPrefixOf p = true := by
  have htake := take_of_isPrefixOf h
  have h2 : p.take X.length = X := by
    rw [← htake, List.take_take, Nat.min_eq_left hl,
      List.take_append_of_le_length le_rfl, List.take_length]
  have hsplit := List.take_append_drop X.length p
  rw [h2] at hsplit
  exact List.isPrefixOf_iff_prefix.mpr ⟨p.drop X.length, hsplit⟩

theorem occurs_of_prefix_drop {p t : List Char} {k : Nat}
    (h : p.isPrefixOf (t.drop k) = true) : occurs p t = true := by
  obtain ⟨w, hw⟩ := List.isPrefixOf_iff_prefix.mp h
  exact occurs_iff.mpr
    ⟨t.take k, w, by rw [List.append_assoc, hw, List.take_append_drop]⟩

theorem noStart_in_block {p A : List Char} (hocc : occurs p A = false)
    (hsp : ∀ k, k < A.length → ¬ (A.drop k).isPrefixOf p = true)
    (Y : List Char) {q : Nat} (hq : q < A.length) :
    ¬ p.isPrefixOf ((A ++ Y).drop q) = true := by
  intro hpre
  by_cases hle : q + p.length ≤ A.length
  · exact noStart_of_within hocc hle hpre
  · push_neg at hle
    have hdrop : (A ++ Y).drop q = A.drop q ++ Y :=
      List.drop_append_of_le_length (le_of_lt hq)
    rw [hdrop] at hpre
    have hlen : (A.drop q).length ≤ p.length := by
      rw [List.length_drop]
      omega
    exact hsp q hq (isPrefixOf_of_append_long hpre hlen)

theorem replaceRun_append_nostart (p o : List Char) :
    ∀ (A Y : List Char),
      (∀ q, q < A.length → ¬ p.isPrefixOf ((A ++ Y).drop q) = true) →
      replaceRun p o 0 (A ++ Y) = A ++ replaceRun p o 0 Y := by
  intro A
  induction A with
  | nil => intro Y _; rfl
  | cons a A2 ih =>
    intro Y hns
    have h0 := hns 0 (by simp)
    show replaceRun p o 0 (a :: (A2 ++ Y)) = a :: (A2 ++ replaceRun p o 0 Y)
    simp only [replaceRun]
    rw [if_neg (fun hcc => h0 hcc.1)]
    exact congrArg (List.cons a)
      (ih Y (fun q hq hpre =>
        hns (q + 1) (by simp only [List.length_cons]; omega) hpre))

theorem isPrefixOf_drop_replaceAll (p1 o1 p2 : List Char) (hp1 : p1 ≠ [])
    (hocc12 : occurs p1 p2 = false)
    (hsp : ∀ k, k < p2.length → ¬ (p2.drop k).isPrefixOf p1 = true)
    (hso : ∀ k, k < p2.length → ¬ (p2.drop k).isPrefixOf o1 = true)
    (hns : ∀ k, k < p2.length → ¬ o1.isPrefixOf (p2.drop k) = true) :
    ∀ (N : Nat) (z : List Char), z.length ≤ N → ∀ k,
      (p2.drop k).isPrefixOf (replaceRun p1 o1 0 z) =
        (p2.drop k).isPrefixOf z := by
  intro N
  induction N with
  | zero =>
    intro z hz k
    match z, hz with
    | [], _ => rfl
    | c :: r, hz => simp at hz
  | succ N ih =>
    intro z hz k
    by_cases hk : p2.length ≤ k
    · rw [List.drop_eq_nil_of_le hk]
      simp [List.isPrefixOf]
    · push_neg at hk
      match z with
      | [] => rfl
      | c :: rest =>
        by_cases hb : p1.isPrefixOf (c :: rest) = true
        · obtain ⟨z2, hz2⟩ := List.isPrefixOf_iff_prefix.mp hb
          rw [← hz2, replaceRun_self_append p1 o1 z2 hp1]
          have hRHS : (p2.drop k).isPrefixOf (p1 ++ z2) = false := by
            apply eq_false_of_ne_true
            intro htrue
            by_cases hll : (p2.drop k).length ≤ p1.length
            · exact hsp k hk (isPrefixOf_append_short htrue hll)
            · push_neg at hll
              have h2 := isPrefixOf_of_append_long htrue (by omega)
              have h3 := occurs_of_prefix_drop h2
              simp [hocc12] at h3
          have hLHS : (p2.drop k).isPrefixOf (o1 ++ replaceRun p1 o1 0 z2) =
              false := by
            apply eq_false_of_ne_true
            intro htrue
            by_cases hll : (p2.drop k).length ≤ o1.length
            · exact hso k hk (isPrefixOf_append_short htrue hll)
            · push_neg at hll
              exact hns k hk (isPrefixOf_of_append_long htrue (by omega))
          rw [hRHS, hLHS]
        · have hstep : replaceRun p1 o1 0 (c :: rest) =
              c :: replaceRun p1 o1 0 rest := by
            simp only [replaceRun]
            rw [if_neg (fun hcc => hb hcc.1)]
          rw [hstep]
          have hdk : p2.drop k = p2[k] :: p2.drop (k + 1) :=
            List.drop_eq_getElem_cons hk
          rw [hdk]
          show (p2[k] == c &&
              (p2.drop (k + 1)).isPrefixOf (replaceRun p1 o1 0 rest)) =
            (p2[k] == c && (p2.drop (k + 1)).isPrefixOf rest)
          rw [ih rest (by simp only [List.length_cons] at hz; omega) (k + 1)]

theorem replaceAll_comm_of_nonInteracting (p1 o1 p2 o2 : List Char)
    (h : NonInteracting p1 o1 p2 o2) :
    ∀ (N : Nat) (z : List Char), z.length ≤ N →
      replaceAll (replaceAll z p1 o1) p2 o2 =
        replaceAll (replaceAll z p2 o2) p1 o1 := by
  obtain ⟨hp1, hp2, h3, h4, h5, h6, h7, h8, h9, h10, h11, h12, h13, h14⟩ := h
  intro N
  induction N with
  | zero =>
    intro z hz
    match z, hz with
    | [], _ => rfl
    | c :: r, hz => simp at hz
  | succ N ih =>
    intro z hz
    match z with
    | [] => rfl
    | c :: rest =>
      simp only [replaceAll]
      by_cases hb1 : p1.isPrefixOf (c :: rest) = true
      · obtain ⟨z2, hz2⟩ := List.isPrefixOf_iff_prefix.mp hb1
        have hlenz2 : z2.length ≤ N := by
          have h15 := congrArg List.length hz2
          simp only [List.length_append, List.length_cons] at h15
          have h16 : 1 ≤ p1.length := by
            match p1, hp1 with
            | a :: t, _ => simp
          simp only [List.length_cons] at hz
          omega
        rw [← hz2, replaceRun_self_append p1 o1 z2 hp1,
          replaceRun_append_nostart p2 o2 o1 (replaceRun p1 o1 0 z2)
            (fun q hq => noStart_in_block h5 h13 _ hq),
          replaceRun_append_nostart p2 o2 p1 z2
            (fun q hq => noStart_in_block h4 h10 _ hq),
          replaceRun_self_append p1 o1 (replaceRun p2 o2 0 z2) hp1]
        have hIH := ih z2 hlenz2
        simp only [replaceAll] at hIH
        rw [hIH]
      · by_cases hb2 : p2.isPrefixOf (c :: rest) = true
        · obtain ⟨z2, hz2⟩ := List.isPrefixOf_iff_prefix.mp hb2
          have hlenz2 : z2.length ≤ N := by
            have h15 := congrArg List.length hz2
            simp only [List.length_append, List.length_cons] at h15
            have h16 : 1 ≤ p2.length := by
              match p2, hp2 with
              | a :: t, _ => simp
            simp only [List.length_cons] at hz
            omega
          rw [← hz2,
            replaceRun_append_nostart p1 o1 p2 z2
              (fun q hq => noStart_in_block h3 h7 _ hq),
            replaceRun_self_append p2 o2 (replaceRun p1 o1 0 z2) hp2,
            replaceRun_self_append p2 o2 z2 hp2,
            replaceRun_append_nostart p1 o1 o2 (replaceRun p2 o2 0 z2)
              (fun q hq => noStart_in_block h6 h14 _ hq)]
          have hIH := ih z2 hlenz2
          simp only [replaceAll] at hIH
          rw [hIH]
        · have hs1 : replaceRun p1 o1 0 (c :: rest) =
              c :: replaceRun p1 o1 0 rest := by
            simp only [replaceRun]
            rw [if_neg (fun hcc => hb1 hcc.1)]
          have hs2 : replaceRun p2 o2 0 (c :: rest) =
              c :: replaceRun p2 o2 0 rest := by
            simp only [replaceRun]
            rw [if_neg (fun hcc => hb2 hcc.1)]
          rw [hs1, hs2]
          have hpt1 : p2.isPrefixOf (c :: replaceRun p1 o1 0 rest) = false := by
            have h17 := isPrefixOf_drop_replaceAll p1 o1 p2 hp1 h3 h7 h8 h9
              (c :: rest).length (c :: rest) le_rfl 0
            rw [List.drop_zero, hs1] at h17
            exact h17.trans (eq_false_of_ne_true hb2)
          have hpt2 : p1.isPrefixOf (c :: replaceRun p2 o2 0 rest) = false := by
            have h17 := isPrefixOf_drop_replaceAll p2 o2 p1 hp2 h4 h10 h11 h12
              (c :: rest).length (c :: rest) le_rfl 0
            rw [List.drop_zero, hs2] at h17
            exact h17.trans (eq_false_of_ne_true hb1)
          have hstepL : replaceRun p2 o2 0 (c :: replaceRun p1 o1 0 rest) =
              c :: replaceRun p2 o2 0 (replaceRun p1 o1 0 rest) := by
            simp only [replaceRun]
            rw [if_neg (fun hcc => absurd hcc.1 (by rw [hpt1]; simp))]
          have hstepR : replaceRun p1 o1 0 (c :: replaceRun p2 o2 0 rest) =
              c :: replaceRun p1 o1 0 (replaceRun p2 o2 0 rest) := by
            simp only [replaceRun]
            rw [if_neg (fun hcc => absurd hcc.1 (by rw [hpt2]; simp))]
          rw [hstepL, hstepR]
          have hIH := ih rest (by simp only [List.length_cons] at hz; omega)
          simp only [replaceAll] at hIH
          rw [hIH]

/-- C9 amended: deobfuscation is order-independent for mappings whose records do
not interact at the substring level: any two records that differ in their
`(placeholder, original)` value satisfy `NonInteracting` — neither placeholder
occurs in or overlaps the other record's placeholder or original, and neither
original can complete the other record's placeholder across a junction.
Duplicate records (repeated occurrences of one name, with equal placeholder and
original) need no condition, and the conditions hold for genuine registry data
such as `Fund001 → MasterFund1` versus `Fund002 → MasterFund2`.  Then every
permutation of the record list yields the same deobfuscated text. -/
theorem C9_amended (t : List Char) (recs recs' : List ObfRecord)
    (hperm : recs.Perm recs')
    (hni : ∀ x ∈ recs, ∀ y ∈ recs,
      ¬(x.placeholder = y.placeholder ∧ x.original = y.original) →
      NonInteracting x.placeholder x.original y.placeholder y.original) :
    deobfuscate_fund_names t recs = deobfuscate_fund_names t recs' := by
  unfold deobfuscate_fund_names
  refine foldl_perm_of_comm _ hperm ?_ t
  intro x hx y hy z
  by_cases hxy : x.placeholder = y.placeholder ∧ x.original = y.original
  · show replaceRun y.placeholder y.original 0
        (replaceRun x.placeholder x.original 0 z) =
      replaceRun x.placeholder x.original 0
        (replaceRun y.placeholder y.original 0 z)
    rw [hxy.1, hxy.2]
  · have h := replaceAll_comm_of_nonInteracting x.placeholder x.original
      y.placeholder y.original (hni x hx y hy hxy) z.length z le_rfl
    simp only [replaceAll] at h
    exact h

/-- C9 witness: the amended statement at a concrete text and a three-record
mapping taken from the program's own registry data — `Fund001 → MasterFund1`
(twice, a duplicate record with a different span) and `Fund002 → MasterFund2` —
under a permutation that moves the duplicate across the other record. -/
theorem C9_amended_witness :
    List.Perm
      [(⟨str "MasterFund1", str "Fund001", 0, 11⟩ : ObfRecord),
       ⟨str "MasterFund1", str "Fund001", 14, 25⟩,
       ⟨str "MasterFund2", str "Fund002", 28, 39⟩]
      [⟨str "MasterFund2", str "Fund002", 28, 39⟩,
       ⟨str "MasterFund1", str "Fund001", 14, 25⟩,
       ⟨str "MasterFund1", str "Fund001", 0, 11⟩]
    ∧ deobfuscate_fund_names (str "Fund001 and Fund001 and Fund002")
        [⟨str "MasterFund1", str "Fund001", 0, 11⟩,
         ⟨str "MasterFund1", str "Fund001", 14, 25⟩,
         ⟨str "MasterFund2", str "Fund002", 28, 39⟩] =
      deobfuscate_fund_names (str "Fund001 and Fund001 and Fund002")
        [⟨str "MasterFund2", str "Fund002", 28, 39⟩,
         ⟨str "MasterFund1", str "Fund001", 14, 25⟩,
         ⟨str "MasterFund1", str "Fund001", 0, 11⟩] :=
  ⟨by decide,
    C9_amended (str "Fund001 and Fund001 and Fund002")
      [⟨str "MasterFund1", str "Fund001", 0, 11⟩,
       ⟨str "MasterFund1", str "Fund001", 14, 25⟩,
       ⟨str "MasterFund2", str "Fund002", 28, 39⟩]
      [⟨str "MasterFund2", str "Fund002", 28, 39⟩,
       ⟨str "MasterFund1", str "Fund001", 14, 25⟩,
       ⟨str "MasterFund1", str "Fund001", 0, 11⟩]
      (by decide) (by decide)⟩

end AssetPrivacy

